import Mathlib

set_option maxRecDepth 2000

/-!
# A shallow embedding of the FrameGraph core (src/src/FrameGraph.cpp)

The embedding models the render-pass dependency graph of the repository:
`ResourceEntry` (one per logical resource), `ResourceNode` (one per version
of a logical resource), `PassNode` (one declared pass), the `Builder`
read/write declaration operations, `compile()` (reference counting, culling,
lifetime computation) and `execute()` (modelled as the trace of externally
visible events: create / pre-read / pre-write hooks, callback invocations,
destroys).

C++ pointers to pass nodes (`PassNode *m_producer`, `m_last`) are modelled
as indices into the pass-node list (`Option Nat`); the pass lists are never
reordered, so index equality coincides with pointer identity in the source.
The reference counters and version counters are 32-bit unsigned integers in
the source; increments and decrements are therefore taken modulo `2^32`.
The culling loop of `compile()` is written with explicit fuel
(`resourceNodes.length + 1`); the fuel is provably sufficient for every
graph reachable through the declaration API (see the culling invariant
below), and running out of fuel — like a failure of the source's
`assert(producer->m_refCount >= 1)` — yields `none`, mirroring an abort.

The class header of the repository (FrameGraph.hpp) is not part of the
sources; the small member functions that live there (`PassNode::_read`,
`PassNode::_write`, `PassNode::creates`, `PassNode::canExecute`,
`ResourceEntry::isTransient`, the initial field values and the constants
`kFlagsIgnored`, `kResourceInitialVersion`) are modelled from the spec and
are marked as such on their declarations.
-/

/-- Word size of the 32-bit unsigned counters used by the source. -/
def U32 : Nat := 4294967296

/-- Modelled from the spec: the sentinel access-flags value `kFlagsIgnored`
("flags marked ignored ... triggers no pre-read hook"); its concrete value
(all bits set in a 32-bit word) is irrelevant to the claims, only its
distinguishability from ordinary flags matters. -/
def kFlagsIgnored : Nat := 4294967295

/-- Modelled from the spec: `kResourceInitialVersion`, the initial value of
the monotonic version counter of a `ResourceEntry` and the version captured
by a `ResourceNode` at creation. -/
def kResourceInitialVersion : Nat := 1

/-- One logical resource in the registry: owns the backing resource's
lifecycle state.  `producer` and `last` model the `PassNode *m_producer`
and `PassNode *m_last` back-references as pass indices. -/
structure ResourceEntry where
  version : Nat
  imported : Bool
  producer : Option Nat
  last : Option Nat
  deriving Repr, DecidableEq

/-- Modelled from the spec: "transient flag (derived: not imported)". -/
def ResourceEntry.isTransient (e : ResourceEntry) : Bool := !e.imported

def ResourceEntry.isImported (e : ResourceEntry) : Bool := e.imported

/-- One version of a logical resource.  `resourceId` indexes the registry;
`version` is captured at creation time.  `refCount` and `producer` are the
compile-time bookkeeping fields. -/
structure ResourceNode where
  name : String
  id : Nat
  resourceId : Nat
  version : Nat
  refCount : Nat
  producer : Option Nat
  deriving Repr, DecidableEq

/-- One declared pass.  `exec` stands for the opaque execution callback
(`m_exec`), identified only by a tag since the callback itself is external.
`reads` and `writes` are lists of (resource-node id, access flags);
`creates` is a list of resource-node ids. -/
structure PassNode where
  name : String
  id : Nat
  exec : Nat
  creates : List Nat
  reads : List (Nat × Nat)
  writes : List (Nat × Nat)
  refCount : Nat
  hasSideEffect : Bool
  deriving Repr, DecidableEq

/-- Modelled from the spec: a pass executes unless "reference count is zero
and it has no side effect" (`PassNode::canExecute`). -/
def PassNode.canExecute (p : PassNode) : Bool :=
  p.refCount != 0 || p.hasSideEffect

/-- Modelled from the spec: `PassNode::creates(id)` — membership of the
node id in the pass's create list. -/
def PassNode.createsId (p : PassNode) (id : Nat) : Bool :=
  p.creates.contains id

/-- Modelled from the spec: `PassNode::_read(id, flags)` registers `id` in
the pass's read list with the given access flags and returns `id`. -/
def PassNode.pushRead (p : PassNode) (id flags : Nat) : PassNode :=
  { p with reads := p.reads ++ [(id, flags)] }

/-- Modelled from the spec: `PassNode::_write(id, flags)` registers `id` in
the pass's write list with the given access flags and returns `id`. -/
def PassNode.pushWrite (p : PassNode) (id flags : Nat) : PassNode :=
  { p with writes := p.writes ++ [(id, flags)] }

/-- The frame graph: all pass nodes, all resource nodes (one per resource
version), and the resource registry (one entry per logical resource). -/
structure FrameGraph where
  passNodes : List PassNode
  resourceNodes : List ResourceNode
  resourceRegistry : List ResourceEntry
  deriving Repr, DecidableEq

/-- Replace the element at index `i` by `f` applied to it (no-op out of
bounds); models in-place mutation of a vector element. -/
def updAt (f : α → α) : List α → Nat → List α
  | [], _ => []
  | a :: l, 0 => f a :: l
  | a :: l, n + 1 => a :: updAt f l n

namespace FrameGraph

/-- `FrameGraph::_getResourceNode` (the source asserts the bound; out of
bounds is `none`). -/
def getResourceNode (fg : FrameGraph) (id : Nat) : Option ResourceNode :=
  fg.resourceNodes.get? id

/-- `FrameGraph::_getResourceEntry`: registry entry of the node named `id`. -/
def getResourceEntry (fg : FrameGraph) (id : Nat) : Option ResourceEntry :=
  match fg.getResourceNode id with
  | none => none
  | some node => fg.resourceRegistry.get? node.resourceId

/-- `FrameGraph::isValid(id)`: the node's captured version equals the
current version of its registry entry.  (The source asserts the bounds;
out-of-bounds handles yield `false` here.) -/
def isValid (fg : FrameGraph) (id : Nat) : Bool :=
  match fg.getResourceNode id with
  | none => false
  | some node =>
    match fg.resourceRegistry.get? node.resourceId with
    | none => false
    | some entry => node.version == entry.version

/-- `FrameGraph::_clone(id)`: bump the entry's version (32-bit increment),
append a new `ResourceNode` carrying the node's name and `resourceId` and
the new version, and return the new node's id.  `none` models the failure
of the source's bounds assertions. -/
def clone (fg : FrameGraph) (id : Nat) : Option (Nat × FrameGraph) :=
  match fg.getResourceNode id with
  | none => none
  | some node =>
    match fg.resourceRegistry.get? node.resourceId with
    | none => none
    | some entry =>
      let newVersion := (entry.version + 1) % U32
      let registry := updAt (fun e => { e with version := newVersion })
        fg.resourceRegistry node.resourceId
      let cloneId := fg.resourceNodes.length
      let newNode : ResourceNode :=
        { name := node.name, id := cloneId, resourceId := node.resourceId,
          version := newVersion, refCount := 0, producer := none }
      some (cloneId,
        { fg with resourceRegistry := registry,
                  resourceNodes := fg.resourceNodes ++ [newNode] })

/-- `FrameGraph::_createResourceNode` (fresh node at `kResourceInitialVersion`,
reference count 0, no producer; the initial field values are modelled from
the spec since the header is not in the sources). -/
def createResourceNode (fg : FrameGraph) (name : String) (resourceId : Nat) :
    Nat × FrameGraph :=
  let id := fg.resourceNodes.length
  (id, { fg with resourceNodes := fg.resourceNodes ++
    [{ name := name, id := id, resourceId := resourceId,
       version := kResourceInitialVersion, refCount := 0, producer := none }] })

end FrameGraph

/-- `FrameGraph::Builder::read(id, flags)`: asserts validity (modelled as
`none` on failure), registers `id` in the read list of the pass at index
`passIdx`, and returns `id`. -/
def builderRead (fg : FrameGraph) (passIdx id flags : Nat) :
    Option (Nat × FrameGraph) :=
  if fg.isValid id then
    match fg.passNodes.get? passIdx with
    | none => none
    | some _ =>
      let passes := updAt (fun p => p.pushRead id flags) fg.passNodes passIdx
      some (id, { fg with passNodes := passes })
  else none

/-- `FrameGraph::Builder::write(id, flags)`: asserts validity; marks the
pass as having a side effect when the backing resource is imported; then
either registers `id` directly (the pass created it) or registers the old
id as an ignored read, clones the resource, and registers the clone as the
write, returning the clone's id. -/
def builderWrite (fg : FrameGraph) (passIdx id flags : Nat) :
    Option (Nat × FrameGraph) :=
  if fg.isValid id then
    match fg.passNodes.get? passIdx with
    | none => none
    | some pass =>
      match fg.getResourceEntry id with
      | none => none
      | some entry =>
        let pass := if entry.isImported then { pass with hasSideEffect := true }
          else pass
        if pass.createsId id then
          let pass := pass.pushWrite id flags
          let passes := updAt (fun _ => pass) fg.passNodes passIdx
          some (id, { fg with passNodes := passes })
        else
          let pass := pass.pushRead id kFlagsIgnored
          let passes := updAt (fun _ => pass) fg.passNodes passIdx
          let fg := { fg with passNodes := passes }
          match fg.clone id with
          | none => none
          | some (cloneId, fg) =>
            let passes := updAt (fun p => p.pushWrite cloneId flags)
              fg.passNodes passIdx
            some (cloneId, { fg with passNodes := passes })
  else none

/-- `FrameGraph::Builder::setSideEffect()`. -/
def setSideEffect (p : PassNode) : PassNode :=
  { p with hasSideEffect := true }

/-!
## compile(): reference counting, culling, lifetime computation
-/

/-- 32-bit unsigned decrement (`--x` on a `uint32_t`). -/
def decr (x : Nat) : Nat := (x + (U32 - 1)) % U32

/-- Reference count of node `n` (0 out of bounds, for stating lemmas). -/
def rcN (nodes : List ResourceNode) (n : Nat) : Nat :=
  match nodes.get? n with
  | some nd => nd.refCount
  | none => 0

/-- First phase of `compile()`, read side: `consumed.m_refCount++` for every
read entry of one pass. -/
def bumpReads : List ResourceNode → List (Nat × Nat) → List ResourceNode
  | nodes, [] => nodes
  | nodes, r :: l =>
    bumpReads
      (updAt (fun nd => { nd with refCount := (nd.refCount + 1) % U32 })
        nodes r.1) l

/-- First phase of `compile()`, write side: `written.m_producer = &pass` for
every write entry of the pass at index `i`. -/
def setProducers : List ResourceNode → Nat → List (Nat × Nat) → List ResourceNode
  | nodes, _, [] => nodes
  | nodes, i, w :: l =>
    setProducers (updAt (fun nd => { nd with producer := some i }) nodes w.1) i l

/-- First phase of `compile()` over all passes, starting at pass index `i`. -/
def phase1Nodes : List ResourceNode → Nat → List PassNode → List ResourceNode
  | nodes, _, [] => nodes
  | nodes, i, p :: ps =>
    phase1Nodes (setProducers (bumpReads nodes p.reads) i p.writes) (i + 1) ps

/-- The complete first phase of `compile()`: every pass's reference count
becomes its number of writes, every read target's reference count is
incremented, every write target's producer is set to the writing pass. -/
def refCountingPhase (fg : FrameGraph) : FrameGraph :=
  { fg with
    passNodes := fg.passNodes.map
      (fun p => { p with refCount := p.writes.length % U32 }),
    resourceNodes := phase1Nodes fg.resourceNodes 0 fg.passNodes }

/-- State of the culling loop: the mutable pass and node lists, the explicit
work stack of node indices (head = top), and the instrumenting record of
every node index popped so far (newest first). -/
structure CullState where
  passes : List PassNode
  nodes : List ResourceNode
  stack : List Nat
  popped : List Nat
  deriving Repr

/-- One step of `if (--node.m_refCount == 0) unreferencedResources.push(&node);`
on the node named by one read entry of a dead pass. -/
def decReadStep (nodes : List ResourceNode) (stack : List Nat) (id : Nat) :
    List ResourceNode × List Nat :=
  match nodes.get? id with
  | none => (nodes, stack)
  | some nd =>
    let rc := decr nd.refCount
    let nodes := updAt (fun nd => { nd with refCount := rc }) nodes id
    if rc = 0 then (nodes, id :: stack) else (nodes, stack)

/-- The decrement-and-push loop over all read entries of a dead pass. -/
def decReads : List ResourceNode → List Nat → List (Nat × Nat) →
    List ResourceNode × List Nat
  | nodes, stack, [] => (nodes, stack)
  | nodes, stack, r :: l =>
    let s := decReadStep nodes stack r.1
    decReads s.1 s.2 l

/-- Processing of one popped node: look up its producer; skip when there is
none or it has a side effect; otherwise check the source's
`assert(producer->m_refCount >= 1)` (`none` on failure, mirroring the
abort), decrement the producer, and on reaching zero decrement all the
nodes the dead pass reads, pushing those that become unreferenced. -/
def popStep (passes : List PassNode) (nodes : List ResourceNode) (n : Nat)
    (rest : List Nat) :
    Option (List PassNode × List ResourceNode × List Nat) :=
  match nodes.get? n with
  | none => some (passes, nodes, rest)
  | some nd =>
    match nd.producer with
    | none => some (passes, nodes, rest)
    | some p =>
      match passes.get? p with
      | none => some (passes, nodes, rest)
      | some pass =>
        if pass.hasSideEffect then some (passes, nodes, rest)
        else if pass.refCount = 0 then none
        else
          let rc := decr pass.refCount
          let passes := updAt (fun q => { q with refCount := rc }) passes p
          if rc = 0 then
            let ns := decReads nodes rest pass.reads
            some (passes, ns.1, ns.2)
          else some (passes, nodes, rest)

/-- The culling loop of `compile()`: pop until the stack is empty.
Exhausted fuel with a non-empty stack yields `none`; the fuel chosen by
`compile` never runs out on graphs reachable through the declaration
API. -/
def cullLoop : Nat → CullState → Option CullState
  | 0, s => if s.stack.isEmpty then some s else none
  | fuel + 1, s =>
    match s.stack with
    | [] => some s
    | n :: rest =>
      match popStep s.passes s.nodes n rest with
      | none => none
      | some t =>
        cullLoop fuel
          { passes := t.1, nodes := t.2.1, stack := t.2.2,
            popped := n :: s.popped }

/-- Seed of the culling stack: every node whose reference count is zero,
pushed in node order (so the head of the list is the last one pushed). -/
def seedStackAux : Nat → List ResourceNode → List Nat → List Nat
  | _, [], acc => acc
  | i, nd :: l, acc =>
    seedStackAux (i + 1) l (if nd.refCount = 0 then i :: acc else acc)

def seedStack (nodes : List ResourceNode) : List Nat := seedStackAux 0 nodes []

/-- Registry index of the entry backing node `id`
(`_getResourceNode(id).m_resourceId`). -/
def entryIdxOf (nodes : List ResourceNode) (id : Nat) : Option Nat :=
  (nodes.get? id).map (fun nd => nd.resourceId)

/-- Lifetime phase, creates: `_getResourceEntry(id).m_producer = &pass`. -/
def phase3Creates (nodes : List ResourceNode) (i : Nat) :
    List ResourceEntry → List Nat → List ResourceEntry
  | registry, [] => registry
  | registry, id :: l =>
    match entryIdxOf nodes id with
    | none => phase3Creates nodes i registry l
    | some j =>
      phase3Creates nodes i
        (updAt (fun e => { e with producer := some i }) registry j) l

/-- Lifetime phase, reads/writes: `_getResourceEntry(id).m_last = &pass`. -/
def phase3Uses (nodes : List ResourceNode) (i : Nat) :
    List ResourceEntry → List (Nat × Nat) → List ResourceEntry
  | registry, [] => registry
  | registry, r :: l =>
    match entryIdxOf nodes r.1 with
    | none => phase3Uses nodes i registry l
    | some j =>
      phase3Uses nodes i
        (updAt (fun e => { e with last := some i }) registry j) l

/-- Lifetime phase over the passes starting at index `i`: passes with
reference count zero are skipped; the others stamp their index as the
producer of every entry they create and the last user of every entry they
write or read (in that order, as in the source). -/
def lifetimeAux (nodes : List ResourceNode) :
    Nat → List ResourceEntry → List PassNode → List ResourceEntry
  | _, registry, [] => registry
  | i, registry, pass :: ps =>
    if pass.refCount = 0 then lifetimeAux nodes (i + 1) registry ps
    else
      lifetimeAux nodes (i + 1)
        (phase3Uses nodes i
          (phase3Uses nodes i
            (phase3Creates nodes i registry pass.creates) pass.writes)
          pass.reads) ps

def lifetimePhase (fg : FrameGraph) : FrameGraph :=
  { fg with resourceRegistry :=
      lifetimeAux fg.resourceNodes 0 fg.resourceRegistry fg.passNodes }

/-- `FrameGraph::compile()`: reference counting, culling (with fuel
`numNodes + 1`, sufficient for all declared graphs), lifetime analysis. -/
def FrameGraph.compile (fg : FrameGraph) : Option FrameGraph :=
  let fg1 := refCountingPhase fg
  let s0 : CullState :=
    { passes := fg1.passNodes, nodes := fg1.resourceNodes,
      stack := seedStack fg1.resourceNodes, popped := [] }
  match cullLoop (fg1.resourceNodes.length + 1) s0 with
  | none => none
  | some s =>
    some (lifetimePhase
      { fg1 with passNodes := s.passes, resourceNodes := s.nodes })

/-!
## execute(): the trace of externally visible events
-/

/-- The externally visible actions of `execute()`: `created j` /
`destroyed j` are the allocator calls on registry entry `j`; `preRead` /
`preWrite` are the hook dispatches with their flags; `invoked i` is the
invocation of pass `i`'s execution callback. -/
inductive Event where
  | created : Nat → Event
  | preRead : Nat → Nat → Event
  | preWrite : Nat → Nat → Event
  | invoked : Nat → Event
  | destroyed : Nat → Event
  deriving Repr, DecidableEq

/-- `_getResourceEntry(id).create(allocator)` for each created id. -/
def createEvents (nodes : List ResourceNode) (creates : List Nat) : List Event :=
  creates.filterMap (fun id => (entryIdxOf nodes id).map Event.created)

/-- Pre-read / pre-write hook dispatch: skipped for `kFlagsIgnored`. -/
def hookEvents (nodes : List ResourceNode) (mk : Nat → Nat → Event)
    (l : List (Nat × Nat)) : List Event :=
  l.filterMap (fun r =>
    if r.2 = kFlagsIgnored then none
    else (entryIdxOf nodes r.1).map (fun j => mk j r.2))

/-- Post-callback sweep: destroy every transient entry whose last user is
pass `i` (scanning the registry from entry index `j`). -/
def destroyEventsAux : Nat → List ResourceEntry → Nat → List Event
  | _, [], _ => []
  | j, e :: l, i =>
    if e.last = some i ∧ e.isTransient = true then
      Event.destroyed j :: destroyEventsAux (j + 1) l i
    else destroyEventsAux (j + 1) l i

def destroyEvents (registry : List ResourceEntry) (i : Nat) : List Event :=
  destroyEventsAux 0 registry i

/-- The events of one pass in `execute()`: nothing if the pass cannot
execute, otherwise creates, read hooks, write hooks, the callback
invocation, and the destroy sweep, in source order. -/
def passEvents (fg : FrameGraph) (i : Nat) (pass : PassNode) : List Event :=
  if pass.canExecute then
    createEvents fg.resourceNodes pass.creates ++
    hookEvents fg.resourceNodes Event.preRead pass.reads ++
    hookEvents fg.resourceNodes Event.preWrite pass.writes ++
    [Event.invoked i] ++
    destroyEvents fg.resourceRegistry i
  else []

def executeAux (fg : FrameGraph) : Nat → List PassNode → List Event
  | _, [] => []
  | i, p :: ps => passEvents fg i p ++ executeAux fg (i + 1) ps

/-- `FrameGraph::execute(context, allocator)` as its trace of events. -/
def FrameGraph.execute (fg : FrameGraph) : List Event :=
  executeAux fg 0 fg.passNodes

/-!
## Basic lemmas about `updAt`
-/

theorem updAt_length (f : α → α) (l : List α) (i : Nat) :
    (updAt f l i).length = l.length := by
  induction l generalizing i with
  | nil => rfl
  | cons a l ih =>
    cases i with
    | zero => rfl
    | succ n => simp [updAt, ih]

theorem updAt_get_self (f : α → α) (l : List α) (i : Nat) :
    (updAt f l i).get? i = (l.get? i).map f := by
  induction l generalizing i with
  | nil => rfl
  | cons a l ih =>
    cases i with
    | zero => rfl
    | succ n => simpa [updAt] using ih n

theorem updAt_get_other (f : α → α) (l : List α) {i j : Nat} (h : i ≠ j) :
    (updAt f l i).get? j = l.get? j := by
  induction l generalizing i j with
  | nil => rfl
  | cons a l ih =>
    cases i with
    | zero =>
      cases j with
      | zero => exact absurd rfl h
      | succ m => rfl
    | succ n =>
      cases j with
      | zero => rfl
      | succ m =>
        simpa [updAt] using ih (fun hnm => h (by rw [hnm]))

theorem updAt_map_of_fix (f : α → α) (g : α → β) (l : List α) (i : Nat)
    (h : ∀ a, g (f a) = g a) : (updAt f l i).map g = l.map g := by
  induction l generalizing i with
  | nil => rfl
  | cons a l ih =>
    cases i with
    | zero => simp [updAt, h]
    | succ n => simp [updAt, ih]

/-!
## C1: the validity invariant
-/

theorem succ_mod_U32_ne (v : Nat) : (v + 1) % U32 ≠ v := by
  have hU : U32 = 4294967296 := rfl
  rw [hU]
  omega

theorem get?_bound {l : List α} {n : Nat} {a : α} (h : l.get? n = some a) :
    n < l.length :=
  (List.get?_eq_some.mp h).1

theorem getElem?_of_get? {l : List α} {n : Nat} {a : α}
    (h : l.get? n = some a) : l[n]? = some a := by
  rw [← List.get?_eq_getElem?]
  exact h

theorem isValid_eq (fg : FrameGraph) (h : Nat) (node : ResourceNode)
    (entry : ResourceEntry) (hn : fg.resourceNodes.get? h = some node)
    (he : fg.resourceRegistry.get? node.resourceId = some entry) :
    fg.isValid h = (node.version == entry.version) := by
  simp [FrameGraph.isValid, FrameGraph.getResourceNode,
    getElem?_of_get? hn, getElem?_of_get? he]

/-- C1: `isValid(h)` holds iff the `ResourceNode`'s captured version equals
the current version of its owning `ResourceEntry`; consequently a clone of
any handle of the same underlying resource (the versioning step of a write)
invalidates `h` while the fresh handle is valid. -/
theorem C1_isValid_iff_version_eq (fg : FrameGraph) (h : Nat)
    (node : ResourceNode) (entry : ResourceEntry)
    (hn : fg.resourceNodes.get? h = some node)
    (he : fg.resourceRegistry.get? node.resourceId = some entry) :
    (fg.isValid h = true ↔ node.version = entry.version) ∧
    (∀ h0 node0 c fg1, fg.resourceNodes.get? h0 = some node0 →
      node0.resourceId = node.resourceId →
      fg.clone h0 = some (c, fg1) →
      fg.isValid h = true →
      fg1.isValid h = false ∧ fg1.isValid c = true) := by
  have hvalid : fg.isValid h = true ↔ node.version = entry.version := by
    rw [isValid_eq fg h node entry hn he]
    exact beq_iff_eq
  refine ⟨hvalid, ?_⟩
  intro h0 node0 c fg1 hn0 hres hclone hv
  have hveq : node.version = entry.version := hvalid.mp hv
  have he0 : fg.resourceRegistry.get? node0.resourceId = some entry := by
    rw [hres]; exact he
  simp only [FrameGraph.clone, FrameGraph.getResourceNode, hn0, he0] at hclone
  rw [Option.some.injEq, Prod.mk.injEq] at hclone
  obtain ⟨hc, hfg1⟩ := hclone
  have hreg1 : fg1.resourceRegistry.get? node.resourceId =
      some { entry with version := (entry.version + 1) % U32 } := by
    rw [← hfg1, ← hres]
    show (updAt _ fg.resourceRegistry node0.resourceId).get? node0.resourceId = _
    rw [updAt_get_self, he0]
    rfl
  have hnodes1 : fg1.resourceNodes = fg.resourceNodes ++
      [{ name := node0.name, id := fg.resourceNodes.length,
         resourceId := node0.resourceId,
         version := (entry.version + 1) % U32, refCount := 0,
         producer := none }] := by rw [← hfg1]
  constructor
  · -- the old handle is now stale
    have hn1 : fg1.resourceNodes.get? h = some node := by
      rw [hnodes1, List.get?_append (get?_bound hn)]
      exact hn
    rw [isValid_eq fg1 h node _ hn1 hreg1]
    simp only [hveq]
    exact beq_eq_false_iff_ne.mpr fun hcontra =>
      succ_mod_U32_ne entry.version hcontra.symm
  · -- the fresh handle is valid
    have hc1 : fg1.resourceNodes.get? fg.resourceNodes.length =
        some { name := node0.name, id := fg.resourceNodes.length,
               resourceId := node0.resourceId,
               version := (entry.version + 1) % U32, refCount := 0,
               producer := none } := by
      rw [hnodes1]
      exact List.get?_concat_length _ _
    rw [← hc]
    have hreg1b : fg1.resourceRegistry.get? node0.resourceId =
        some { entry with version := (entry.version + 1) % U32 } := by
      rw [hres]; exact hreg1
    rw [isValid_eq fg1 fg.resourceNodes.length _ _ hc1 hreg1b]
    exact beq_self_eq_true _

/-!
## C2: writing a resource the pass did not create
-/

theorem getResourceEntry_eq (fg : FrameGraph) (id : Nat) (node : ResourceNode)
    (entry : ResourceEntry) (hn : fg.resourceNodes.get? id = some node)
    (he : fg.resourceRegistry.get? node.resourceId = some entry) :
    fg.getResourceEntry id = some entry := by
  simp [FrameGraph.getResourceEntry, FrameGraph.getResourceNode,
    getElem?_of_get? hn, getElem?_of_get? he]

theorem builderWrite_clone_eq (fg : FrameGraph) (passIdx id flags : Nat)
    (pass pass1 : PassNode) (node : ResourceNode) (entry : ResourceEntry)
    (hp : fg.passNodes.get? passIdx = some pass)
    (hn : fg.resourceNodes.get? id = some node)
    (he : fg.resourceRegistry.get? node.resourceId = some entry)
    (hv : fg.isValid id = true)
    (hnc : pass.createsId id = false)
    (hp1 : pass1 = if entry.isImported = true then
      { pass with hasSideEffect := true } else pass) :
    builderWrite fg passIdx id flags = some (fg.resourceNodes.length,
      { passNodes := updAt (fun p => p.pushWrite fg.resourceNodes.length flags)
          (updAt (fun _ => pass1.pushRead id kFlagsIgnored)
            fg.passNodes passIdx) passIdx,
        resourceNodes := fg.resourceNodes ++
          [{ name := node.name, id := fg.resourceNodes.length,
             resourceId := node.resourceId,
             version := (entry.version + 1) % U32,
             refCount := 0, producer := none }],
        resourceRegistry :=
          updAt (fun e => { e with version := (entry.version + 1) % U32 })
            fg.resourceRegistry node.resourceId }) := by
  have hnc1 : pass1.createsId id = false := by
    subst hp1
    cases himp : entry.isImported with
    | false => simpa [himp] using hnc
    | true => simpa [himp, PassNode.createsId] using hnc
  have hge := getResourceEntry_eq fg id node entry hn he
  simp only [builderWrite, hv, if_true, hp, hge, ← hp1, hnc1,
    Bool.false_eq_true, if_false]
  simp only [FrameGraph.clone, FrameGraph.getResourceNode, hn, he]

/-- C2: for a valid handle the calling pass did not create, `write`
registers the old id as a read with the ignored flags, creates exactly one
new `ResourceNode` on the same entry at the entry's previous version plus
one, registers the new handle as the write, and returns it; the new handle
is distinct from the old one, is valid, and the old handle is invalid. -/
theorem C2_write_clones (fg : FrameGraph) (passIdx id flags : Nat)
    (pass : PassNode) (node : ResourceNode) (entry : ResourceEntry)
    (hp : fg.passNodes.get? passIdx = some pass)
    (hn : fg.resourceNodes.get? id = some node)
    (he : fg.resourceRegistry.get? node.resourceId = some entry)
    (hv : fg.isValid id = true)
    (hnc : pass.createsId id = false)
    (hwrap : entry.version + 1 < U32) :
    ∃ fg1, builderWrite fg passIdx id flags =
        some (fg.resourceNodes.length, fg1) ∧
      fg.resourceNodes.length ≠ id ∧
      fg1.resourceNodes.length = fg.resourceNodes.length + 1 ∧
      (∃ pass1, fg1.passNodes.get? passIdx = some pass1 ∧
        pass1.reads = pass.reads ++ [(id, kFlagsIgnored)] ∧
        pass1.writes = pass.writes ++ [(fg.resourceNodes.length, flags)]) ∧
      (∃ newNode, fg1.resourceNodes.get? fg.resourceNodes.length =
          some newNode ∧
        newNode.resourceId = node.resourceId ∧
        newNode.version = entry.version + 1) ∧
      fg1.isValid fg.resourceNodes.length = true ∧
      fg1.isValid id = false := by
  have hmod : (entry.version + 1) % U32 = entry.version + 1 :=
    Nat.mod_eq_of_lt hwrap
  have heq := builderWrite_clone_eq fg passIdx id flags pass
    (if entry.isImported = true then { pass with hasSideEffect := true }
      else pass) node entry hp hn he hv hnc rfl
  refine ⟨_, heq, ?_, ?_, ?_, ?_, ?_, ?_⟩
  · exact fun hlen => absurd (hlen ▸ get?_bound hn) (lt_irrefl _)
  · simp
  · refine ⟨((if entry.isImported = true then
        { pass with hasSideEffect := true } else pass).pushRead
          id kFlagsIgnored).pushWrite fg.resourceNodes.length flags,
      ?_, ?_, ?_⟩
    · show (updAt _ (updAt _ fg.passNodes passIdx) passIdx).get? passIdx = _
      rw [updAt_get_self, updAt_get_self, hp]
      rfl
    · cases himp : entry.isImported <;>
        simp [himp, PassNode.pushRead, PassNode.pushWrite]
    · cases himp : entry.isImported <;>
        simp [himp, PassNode.pushRead, PassNode.pushWrite]
  · refine ⟨_, List.get?_concat_length _ _, rfl, hmod⟩
  · have hreg : (updAt (fun e => { e with version := (entry.version + 1) % U32 })
        fg.resourceRegistry node.resourceId).get? node.resourceId =
        some { entry with version := (entry.version + 1) % U32 } := by
      rw [updAt_get_self, he]
      rfl
    rw [isValid_eq _ _ _ { entry with version := (entry.version + 1) % U32 }
      (List.get?_concat_length _ _) hreg]
    exact beq_self_eq_true _
  · have hveq : node.version = entry.version := by
      have := isValid_eq fg id node entry hn he
      rw [hv] at this
      exact beq_iff_eq.mp this.symm
    have hn1 : (fg.resourceNodes ++
        [({ name := node.name, id := fg.resourceNodes.length,
            resourceId := node.resourceId,
            version := (entry.version + 1) % U32,
            refCount := 0, producer := none } : ResourceNode)]).get? id =
          some node := by
      rw [List.get?_append (get?_bound hn)]
      exact hn
    have hreg : (updAt (fun e => { e with version := (entry.version + 1) % U32 })
        fg.resourceRegistry node.resourceId).get? node.resourceId =
        some { entry with version := (entry.version + 1) % U32 } := by
      rw [updAt_get_self, he]
      rfl
    rw [isValid_eq _ _ node { entry with version := (entry.version + 1) % U32 }
      hn1 hreg]
    simp only [hveq, hmod]
    exact beq_eq_false_iff_ne.mpr (by omega)

/-!
## Shape preservation: what `compile()` leaves untouched
-/

/-- Everything in a `PassNode` except the reference count. -/
def passShape (p : PassNode) :
    String × Nat × Nat × List Nat × List (Nat × Nat) × List (Nat × Nat) × Bool :=
  (p.name, p.id, p.exec, p.creates, p.reads, p.writes, p.hasSideEffect)

/-- Everything in a `ResourceNode` except the reference count and the
producer back-reference. -/
def nodeShape (nd : ResourceNode) : String × Nat × Nat × Nat :=
  (nd.name, nd.id, nd.resourceId, nd.version)

/-- Everything in a `ResourceEntry` except the producer and last-use
back-references. -/
def entryShape (e : ResourceEntry) : Nat × Bool :=
  (e.version, e.imported)

theorem bumpReads_shape (l : List (Nat × Nat)) (nodes : List ResourceNode) :
    (bumpReads nodes l).map nodeShape = nodes.map nodeShape := by
  induction l generalizing nodes with
  | nil => rfl
  | cons r l ih =>
    rw [bumpReads, ih, updAt_map_of_fix]
    intro a
    rfl

theorem setProducers_shape (l : List (Nat × Nat)) (nodes : List ResourceNode)
    (i : Nat) : (setProducers nodes i l).map nodeShape = nodes.map nodeShape := by
  induction l generalizing nodes with
  | nil => rfl
  | cons w l ih =>
    rw [setProducers, ih, updAt_map_of_fix]
    intro a
    rfl

theorem phase1Nodes_shape (ps : List PassNode) (nodes : List ResourceNode)
    (i : Nat) : (phase1Nodes nodes i ps).map nodeShape = nodes.map nodeShape := by
  induction ps generalizing nodes i with
  | nil => rfl
  | cons p ps ih =>
    rw [phase1Nodes, ih, setProducers_shape, bumpReads_shape]

theorem refCountingPhase_passShape (fg : FrameGraph) :
    (refCountingPhase fg).passNodes.map passShape =
      fg.passNodes.map passShape := by
  show (fg.passNodes.map _).map passShape = _
  rw [List.map_map]
  rfl

theorem refCountingPhase_nodeShape (fg : FrameGraph) :
    (refCountingPhase fg).resourceNodes.map nodeShape =
      fg.resourceNodes.map nodeShape :=
  phase1Nodes_shape fg.passNodes fg.resourceNodes 0

theorem decReadStep_none (nodes : List ResourceNode) (stack : List Nat)
    (id : Nat) (h : nodes.get? id = none) :
    decReadStep nodes stack id = (nodes, stack) := by
  simp only [decReadStep, h]

theorem decReadStep_some (nodes : List ResourceNode) (stack : List Nat)
    (id : Nat) (nd : ResourceNode) (h : nodes.get? id = some nd) :
    decReadStep nodes stack id =
      (updAt (fun x => { x with refCount := decr nd.refCount }) nodes id,
        if decr nd.refCount = 0 then id :: stack else stack) := by
  simp only [decReadStep, h]
  by_cases hz : decr nd.refCount = 0
  · rw [if_pos hz, if_pos hz]
  · rw [if_neg hz, if_neg hz]

theorem decReadStep_shape (nodes : List ResourceNode) (stack : List Nat)
    (id : Nat) :
    (decReadStep nodes stack id).1.map nodeShape = nodes.map nodeShape := by
  cases h : nodes.get? id with
  | none => rw [decReadStep_none nodes stack id h]
  | some nd =>
    rw [decReadStep_some nodes stack id nd h]
    show (updAt (fun x => { x with refCount := decr nd.refCount })
      nodes id).map nodeShape = nodes.map nodeShape
    refine updAt_map_of_fix _ nodeShape nodes id ?_
    intro a
    simp [nodeShape]

theorem decReads_shape (l : List (Nat × Nat)) (nodes : List ResourceNode)
    (stack : List Nat) :
    (decReads nodes stack l).1.map nodeShape = nodes.map nodeShape := by
  induction l generalizing nodes stack with
  | nil => rfl
  | cons r l ih =>
    rw [decReads, ih, decReadStep_shape]

theorem updAt_passShape (passes : List PassNode) (p k : Nat) :
    (updAt (fun q => { q with refCount := k }) passes p).map passShape =
      passes.map passShape := by
  refine updAt_map_of_fix _ passShape passes p ?_
  intro a
  simp [passShape]

theorem popStep_shape (passes : List PassNode) (nodes : List ResourceNode)
    (n : Nat) (rest : List Nat)
    (t : List PassNode × List ResourceNode × List Nat)
    (h : popStep passes nodes n rest = some t) :
    t.1.map passShape = passes.map passShape ∧
      t.2.1.map nodeShape = nodes.map nodeShape := by
  cases hn : nodes.get? n with
  | none =>
    simp only [popStep, hn] at h
    cases h
    exact ⟨rfl, rfl⟩
  | some nd =>
    cases hpr : nd.producer with
    | none =>
      simp only [popStep, hn, hpr] at h
      cases h
      exact ⟨rfl, rfl⟩
    | some p =>
      cases hp : passes.get? p with
      | none =>
        simp only [popStep, hn, hpr, hp] at h
        cases h
        exact ⟨rfl, rfl⟩
      | some pass =>
        simp only [popStep, hn, hpr, hp] at h
        by_cases hse : pass.hasSideEffect = true
        · rw [if_pos hse] at h
          cases h
          exact ⟨rfl, rfl⟩
        · rw [if_neg hse] at h
          by_cases hrc : pass.refCount = 0
          · rw [if_pos hrc] at h
            cases h
          · rw [if_neg hrc] at h
            by_cases hz : decr pass.refCount = 0
            · rw [if_pos hz] at h
              cases h
              constructor
              · exact updAt_passShape passes p _
              · rw [decReads_shape]
            · rw [if_neg hz] at h
              cases h
              exact ⟨updAt_passShape passes p _, rfl⟩

theorem cullLoop_shape (fuel : Nat) (s s1 : CullState)
    (h : cullLoop fuel s = some s1) :
    s1.passes.map passShape = s.passes.map passShape ∧
      s1.nodes.map nodeShape = s.nodes.map nodeShape := by
  induction fuel generalizing s with
  | zero =>
    unfold cullLoop at h
    by_cases he : s.stack.isEmpty = true
    · rw [if_pos he] at h
      cases h
      exact ⟨rfl, rfl⟩
    · rw [if_neg he] at h
      cases h
  | succ fuel ih =>
    unfold cullLoop at h
    cases hst : s.stack with
    | nil =>
      rw [hst] at h
      cases h
      exact ⟨rfl, rfl⟩
    | cons n rest =>
      simp only [hst] at h
      cases hps : popStep s.passes s.nodes n rest with
      | none =>
        simp only [hps] at h
        cases h
      | some t =>
        simp only [hps] at h
        have hstep := popStep_shape s.passes s.nodes n rest t hps
        have hrec := ih _ h
        exact ⟨hrec.1.trans hstep.1, hrec.2.trans hstep.2⟩

theorem phase3Creates_shape (nodes : List ResourceNode) (i : Nat)
    (registry : List ResourceEntry) (l : List Nat) :
    (phase3Creates nodes i registry l).map entryShape =
      registry.map entryShape := by
  induction l generalizing registry with
  | nil => rfl
  | cons id l ih =>
    cases hj : entryIdxOf nodes id with
    | none =>
      simp only [phase3Creates, hj]
      exact ih registry
    | some j =>
      simp only [phase3Creates, hj]
      rw [ih, updAt_map_of_fix]
      intro a
      simp [entryShape]

theorem phase3Uses_shape (nodes : List ResourceNode) (i : Nat)
    (registry : List ResourceEntry) (l : List (Nat × Nat)) :
    (phase3Uses nodes i registry l).map entryShape =
      registry.map entryShape := by
  induction l generalizing registry with
  | nil => rfl
  | cons r l ih =>
    cases hj : entryIdxOf nodes r.1 with
    | none =>
      simp only [phase3Uses, hj]
      exact ih registry
    | some j =>
      simp only [phase3Uses, hj]
      rw [ih, updAt_map_of_fix]
      intro a
      simp [entryShape]

theorem lifetimeAux_shape (nodes : List ResourceNode) (ps : List PassNode)
    (i : Nat) (registry : List ResourceEntry) :
    (lifetimeAux nodes i registry ps).map entryShape =
      registry.map entryShape := by
  induction ps generalizing registry i with
  | nil => rfl
  | cons p ps ih =>
    by_cases hrc : p.refCount = 0
    · rw [lifetimeAux, if_pos hrc]
      exact ih _ _
    · rw [lifetimeAux, if_neg hrc, ih, phase3Uses_shape, phase3Uses_shape,
        phase3Creates_shape]

theorem compile_shapes (fg fg' : FrameGraph)
    (h : fg.compile = some fg') :
    fg'.passNodes.map passShape = fg.passNodes.map passShape ∧
    fg'.resourceNodes.map nodeShape = fg.resourceNodes.map nodeShape ∧
    fg'.resourceRegistry.map entryShape = fg.resourceRegistry.map entryShape := by
  unfold FrameGraph.compile at h
  cases hc : cullLoop ((refCountingPhase fg).resourceNodes.length + 1)
      { passes := (refCountingPhase fg).passNodes,
        nodes := (refCountingPhase fg).resourceNodes,
        stack := seedStack (refCountingPhase fg).resourceNodes,
        popped := [] } with
  | none =>
    simp only [hc] at h
    cases h
  | some s =>
    simp only [hc] at h
    cases h
    have hsh := cullLoop_shape _ _ _ hc
    refine ⟨?_, ?_, ?_⟩
    · exact hsh.1.trans (refCountingPhase_passShape fg)
    · exact hsh.2.trans (refCountingPhase_nodeShape fg)
    · exact lifetimeAux_shape s.nodes s.passes 0 fg.resourceRegistry

/-- C10: `compile()` changes only reference counts, node producer
back-references, and entry producer/last back-references; all other fields
of every pass node (name, id, callback, create/read/write lists, side
effect), resource node (name, id, entry index, version) and registry entry
(version, import flag) are unchanged, as are the three list lengths. -/
theorem C10_compile_only_bookkeeping (fg fg' : FrameGraph)
    (h : fg.compile = some fg') :
    fg'.passNodes.map passShape = fg.passNodes.map passShape ∧
    fg'.resourceNodes.map nodeShape = fg.resourceNodes.map nodeShape ∧
    fg'.resourceRegistry.map entryShape = fg.resourceRegistry.map entryShape :=
  compile_shapes fg fg' h

/-!
## C7: writes to imported resources force a side effect
-/

theorem builderWrite_create_eq (fg : FrameGraph) (passIdx id flags : Nat)
    (pass pass1 : PassNode) (node : ResourceNode) (entry : ResourceEntry)
    (hp : fg.passNodes.get? passIdx = some pass)
    (hn : fg.resourceNodes.get? id = some node)
    (he : fg.resourceRegistry.get? node.resourceId = some entry)
    (hv : fg.isValid id = true)
    (hcr : pass.createsId id = true)
    (hp1 : pass1 = if entry.isImported = true then
      { pass with hasSideEffect := true } else pass) :
    builderWrite fg passIdx id flags = some (id,
      { fg with passNodes := updAt (fun _ => pass1.pushWrite id flags) fg.passNodes passIdx }) := by
  have hcr1 : pass1.createsId id = true := by
    subst hp1
    cases himp : entry.isImported with
    | false => simpa [himp] using hcr
    | true => simpa [himp, PassNode.createsId] using hcr
  have hge := getResourceEntry_eq fg id node entry hn he
  simp only [builderWrite, hv, if_true, hp, hge, ← hp1, hcr1, if_pos]

theorem map_get_shape {f : α → β} {l l' : List α}
    (h : l'.map f = l.map f) (i : Nat) :
    (l'.get? i).map f = (l.get? i).map f := by
  rw [← List.get?_map, ← List.get?_map, h]

/-- C7: `write` on a valid handle of an imported resource marks the calling
pass as having a side effect; `setSideEffect` is idempotent; and a pass
with a side effect can never be culled by `compile()` (it stays
executable). -/
theorem C7_imported_write_side_effect (fg : FrameGraph)
    (passIdx id flags : Nat) (pass : PassNode) (node : ResourceNode)
    (entry : ResourceEntry)
    (hp : fg.passNodes.get? passIdx = some pass)
    (hn : fg.resourceNodes.get? id = some node)
    (he : fg.resourceRegistry.get? node.resourceId = some entry)
    (hv : fg.isValid id = true)
    (himp : entry.isImported = true) :
    (∀ rid fg1, builderWrite fg passIdx id flags = some (rid, fg1) →
      ∃ pass1, fg1.passNodes.get? passIdx = some pass1 ∧
        pass1.hasSideEffect = true) ∧
    (∀ q : PassNode, setSideEffect (setSideEffect q) = setSideEffect q) ∧
    (∀ g g' : FrameGraph, g.compile = some g' →
      ∀ j qp, g.passNodes.get? j = some qp → qp.hasSideEffect = true →
        ∃ qp', g'.passNodes.get? j = some qp' ∧ qp'.canExecute = true) := by
  refine ⟨?_, ?_, ?_⟩
  · intro rid fg1 hw
    cases hcr : pass.createsId id with
    | true =>
      rw [builderWrite_create_eq fg passIdx id flags pass
        { pass with hasSideEffect := true } node entry hp hn he hv hcr
        (by rw [if_pos himp])] at hw
      rw [Option.some.injEq, Prod.mk.injEq] at hw
      refine ⟨({ pass with hasSideEffect := true } : PassNode).pushWrite
        id flags, ?_, rfl⟩
      rw [← hw.2]
      show (updAt _ fg.passNodes passIdx).get? passIdx = _
      rw [updAt_get_self, hp]
      rfl
    | false =>
      rw [builderWrite_clone_eq fg passIdx id flags pass
        { pass with hasSideEffect := true } node entry hp hn he hv hcr
        (by rw [if_pos himp])] at hw
      rw [Option.some.injEq, Prod.mk.injEq] at hw
      refine ⟨(({ pass with hasSideEffect := true } : PassNode).pushRead
        id kFlagsIgnored).pushWrite fg.resourceNodes.length flags, ?_, rfl⟩
      rw [← hw.2]
      show (updAt _ (updAt _ fg.passNodes passIdx) passIdx).get? passIdx = _
      rw [updAt_get_self, updAt_get_self, hp]
      rfl
  · intro q
    rfl
  · intro g g' hcmp j qp hqp hse
    have hmap := map_get_shape (compile_shapes g g' hcmp).1 j
    rw [hqp] at hmap
    obtain ⟨qp', hget, hsh⟩ := Option.map_eq_some'.mp hmap
    refine ⟨qp', hget, ?_⟩
    simp only [passShape, Prod.mk.injEq] at hsh
    simp [PassNode.canExecute, hsh.2.2.2.2.2.2, hse]

/-!
## Concrete graphs for witnesses and counterexamples

`scenarioC` is Scenario C of the spec, reached through the declaration
API: pass P1 creates and writes resource R (node 0), pass P2 writes R
(cloning it to node 1), pass P3 reads the clone and has a side effect.
-/

def wEntry : ResourceEntry :=
  { version := 1, imported := false, producer := none, last := none }

def wEntryImp : ResourceEntry :=
  { version := 1, imported := true, producer := none, last := none }

def wNode : ResourceNode :=
  { name := "R", id := 0, resourceId := 0, version := 1, refCount := 0,
    producer := none }

def wPass : PassNode :=
  { name := "P", id := 0, exec := 0, creates := [], reads := [],
    writes := [], refCount := 0, hasSideEffect := false }

def wG : FrameGraph :=
  { passNodes := [wPass], resourceNodes := [wNode],
    resourceRegistry := [wEntry] }

def wGImp : FrameGraph :=
  { passNodes := [wPass], resourceNodes := [wNode],
    resourceRegistry := [wEntryImp] }

/-- Scenario C before any builder call: the passes are declared (P1 with
its create list, P3 marked as a side-effect pass), resource R exists at the
initial version. -/
def scenarioC0 : FrameGraph :=
  { passNodes := [
      { name := "P1", id := 0, exec := 0, creates := [0], reads := [],
        writes := [], refCount := 0, hasSideEffect := false },
      { name := "P2", id := 1, exec := 1, creates := [], reads := [],
        writes := [], refCount := 0, hasSideEffect := false },
      { name := "P3", id := 2, exec := 2, creates := [], reads := [],
        writes := [], refCount := 0, hasSideEffect := true }],
    resourceNodes := [
      { name := "R", id := 0, resourceId := 0, version := 1, refCount := 0,
        producer := none }],
    resourceRegistry := [
      { version := 1, imported := false, producer := none, last := none }] }

/-- Scenario C after the three builder calls (P1 writes its own creation,
P2 clones, P3 reads the clone). -/
def scenarioC : FrameGraph :=
  { passNodes := [
      { name := "P1", id := 0, exec := 0, creates := [0], reads := [],
        writes := [(0, 7)], refCount := 0, hasSideEffect := false },
      { name := "P2", id := 1, exec := 1, creates := [],
        reads := [(0, kFlagsIgnored)], writes := [(1, 7)], refCount := 0,
        hasSideEffect := false },
      { name := "P3", id := 2, exec := 2, creates := [], reads := [(1, 5)],
        writes := [], refCount := 0, hasSideEffect := true }],
    resourceNodes := [
      { name := "R", id := 0, resourceId := 0, version := 1, refCount := 0,
        producer := none },
      { name := "R", id := 1, resourceId := 0, version := 2, refCount := 0,
        producer := none }],
    resourceRegistry := [
      { version := 2, imported := false, producer := none, last := none }] }

/-- `scenarioC` is exactly what the three builder calls produce from
`scenarioC0`: it is a graph reachable through the declaration API. -/
theorem scenarioC_declared :
    (builderWrite scenarioC0 0 0 7).bind
      (fun s1 => (builderWrite s1.2 1 0 7).bind
        (fun s2 => builderRead s2.2 2 1 5)) = some (1, scenarioC) := by
  decide

theorem C1_witness :
    wG.resourceNodes.get? 0 = some wNode ∧
    wG.resourceRegistry.get? wNode.resourceId = some wEntry ∧
    ((wG.isValid 0 = true ↔ wNode.version = wEntry.version) ∧
    (∀ h0 node0 c fg1, wG.resourceNodes.get? h0 = some node0 →
      node0.resourceId = wNode.resourceId →
      wG.clone h0 = some (c, fg1) →
      wG.isValid 0 = true →
      fg1.isValid 0 = false ∧ fg1.isValid c = true)) :=
  ⟨rfl, rfl, C1_isValid_iff_version_eq wG 0 wNode wEntry rfl rfl⟩

theorem C2_witness :
    wG.passNodes.get? 0 = some wPass ∧
    wG.resourceNodes.get? 0 = some wNode ∧
    wG.resourceRegistry.get? wNode.resourceId = some wEntry ∧
    wG.isValid 0 = true ∧
    wPass.createsId 0 = false ∧
    wEntry.version + 1 < U32 ∧
    (∃ fg1, builderWrite wG 0 0 7 = some (wG.resourceNodes.length, fg1) ∧
      wG.resourceNodes.length ≠ 0 ∧
      fg1.resourceNodes.length = wG.resourceNodes.length + 1 ∧
      (∃ pass1, fg1.passNodes.get? 0 = some pass1 ∧
        pass1.reads = wPass.reads ++ [(0, kFlagsIgnored)] ∧
        pass1.writes = wPass.writes ++ [(wG.resourceNodes.length, 7)]) ∧
      (∃ newNode, fg1.resourceNodes.get? wG.resourceNodes.length =
          some newNode ∧
        newNode.resourceId = wNode.resourceId ∧
        newNode.version = wEntry.version + 1) ∧
      fg1.isValid wG.resourceNodes.length = true ∧
      fg1.isValid 0 = false) :=
  ⟨rfl, rfl, rfl, rfl, rfl, by decide,
    C2_write_clones wG 0 0 7 wPass wNode wEntry rfl rfl rfl rfl rfl
      (by decide)⟩

theorem C7_witness :
    wGImp.passNodes.get? 0 = some wPass ∧
    wGImp.resourceNodes.get? 0 = some wNode ∧
    wGImp.resourceRegistry.get? wNode.resourceId = some wEntryImp ∧
    wGImp.isValid 0 = true ∧
    wEntryImp.isImported = true ∧
    ((∀ rid fg1, builderWrite wGImp 0 0 3 = some (rid, fg1) →
      ∃ pass1, fg1.passNodes.get? 0 = some pass1 ∧
        pass1.hasSideEffect = true) ∧
    (∀ q : PassNode, setSideEffect (setSideEffect q) = setSideEffect q) ∧
    (∀ g g' : FrameGraph, g.compile = some g' →
      ∀ j qp, g.passNodes.get? j = some qp → qp.hasSideEffect = true →
        ∃ qp', g'.passNodes.get? j = some qp' ∧ qp'.canExecute = true)) :=
  ⟨rfl, rfl, rfl, rfl, rfl,
    C7_imported_write_side_effect wGImp 0 0 3 wPass wNode wEntryImp
      rfl rfl rfl rfl rfl⟩

/-- `scenarioC` after `compile()`: P1 and P2 survive with reference count
1, P3 keeps count 0 (it writes nothing) but has a side effect; entry 0's
producer is P1 and its recorded last use is P2. -/
def scenarioCC : FrameGraph :=
  { passNodes := [
      { name := "P1", id := 0, exec := 0, creates := [0], reads := [],
        writes := [(0, 7)], refCount := 1, hasSideEffect := false },
      { name := "P2", id := 1, exec := 1, creates := [],
        reads := [(0, kFlagsIgnored)], writes := [(1, 7)], refCount := 1,
        hasSideEffect := false },
      { name := "P3", id := 2, exec := 2, creates := [], reads := [(1, 5)],
        writes := [], refCount := 0, hasSideEffect := true }],
    resourceNodes := [
      { name := "R", id := 0, resourceId := 0, version := 1, refCount := 1,
        producer := some 0 },
      { name := "R", id := 1, resourceId := 0, version := 2, refCount := 1,
        producer := some 1 }],
    resourceRegistry := [
      { version := 2, imported := false, producer := some 0,
        last := some 1 }] }

theorem C10_witness :
    scenarioC.compile = some scenarioCC ∧
    (scenarioCC.passNodes.map passShape = scenarioC.passNodes.map passShape ∧
    scenarioCC.resourceNodes.map nodeShape =
      scenarioC.resourceNodes.map nodeShape ∧
    scenarioCC.resourceRegistry.map entryShape =
      scenarioC.resourceRegistry.map entryShape) :=
  ⟨by decide, C10_compile_only_bookkeeping scenarioC scenarioCC (by decide)⟩

/-!
## C8: callbacks run once each, in declaration order
-/

def isInvokedEvt : Event → Bool
  | .invoked _ => true
  | _ => false

/-- Whether the pass at index `i` executes (`canExecute` of an existing
pass). -/
def execFlag (fg : FrameGraph) (i : Nat) : Bool :=
  match fg.passNodes.get? i with
  | some p => p.canExecute
  | none => false

theorem createEvents_not_invoked (nodes : List ResourceNode)
    (creates : List Nat) (e : Event) (he : e ∈ createEvents nodes creates) :
    isInvokedEvt e = false := by
  obtain ⟨id, _, heq⟩ := List.mem_filterMap.mp he
  cases hj : entryIdxOf nodes id with
  | none => rw [hj] at heq; cases heq
  | some j =>
    rw [hj] at heq
    cases heq
    rfl

theorem hookEvents_not_invoked (nodes : List ResourceNode)
    (mk : Nat → Nat → Event) (l : List (Nat × Nat))
    (hmk : ∀ j f, isInvokedEvt (mk j f) = false) (e : Event)
    (he : e ∈ hookEvents nodes mk l) : isInvokedEvt e = false := by
  obtain ⟨r, _, heq⟩ := List.mem_filterMap.mp he
  by_cases hf : r.2 = kFlagsIgnored
  · rw [if_pos hf] at heq; cases heq
  · rw [if_neg hf] at heq
    cases hj : entryIdxOf nodes r.1 with
    | none => rw [hj] at heq; cases heq
    | some j =>
      rw [hj] at heq
      cases heq
      exact hmk j r.2

theorem destroyEventsAux_not_invoked (registry : List ResourceEntry)
    (j i : Nat) (e : Event) (he : e ∈ destroyEventsAux j registry i) :
    isInvokedEvt e = false := by
  induction registry generalizing j with
  | nil => cases he
  | cons entry l ih =>
    by_cases hc : entry.last = some i ∧ entry.isTransient = true
    · rw [destroyEventsAux, if_pos hc] at he
      cases he with
      | head => rfl
      | tail _ hmem => exact ih _ hmem
    · rw [destroyEventsAux, if_neg hc] at he
      exact ih _ he

theorem passEvents_filter (fg : FrameGraph) (i : Nat) (pass : PassNode) :
    (passEvents fg i pass).filter isInvokedEvt =
      if pass.canExecute then [Event.invoked i] else [] := by
  have h1 : (createEvents fg.resourceNodes pass.creates).filter
      isInvokedEvt = [] :=
    List.filter_eq_nil.mpr (fun e he => by
      rw [createEvents_not_invoked fg.resourceNodes pass.creates e he]
      exact Bool.false_ne_true)
  have h2 : (hookEvents fg.resourceNodes Event.preRead pass.reads).filter
      isInvokedEvt = [] :=
    List.filter_eq_nil.mpr (fun e he => by
      rw [hookEvents_not_invoked fg.resourceNodes Event.preRead pass.reads
        (fun _ _ => rfl) e he]
      exact Bool.false_ne_true)
  have h3 : (hookEvents fg.resourceNodes Event.preWrite pass.writes).filter
      isInvokedEvt = [] :=
    List.filter_eq_nil.mpr (fun e he => by
      rw [hookEvents_not_invoked fg.resourceNodes Event.preWrite pass.writes
        (fun _ _ => rfl) e he]
      exact Bool.false_ne_true)
  have h4 : (destroyEvents fg.resourceRegistry i).filter isInvokedEvt = [] :=
    List.filter_eq_nil.mpr (fun e he => by
      rw [destroyEventsAux_not_invoked fg.resourceRegistry 0 i e he]
      exact Bool.false_ne_true)
  by_cases hce : pass.canExecute = true
  · rw [passEvents, if_pos hce, if_pos hce]
    simp only [List.filter_append, h1, h2, h3, h4]
    rfl
  · rw [passEvents, if_neg hce, if_neg hce]
    rfl

/-- The invoked events contributed by the passes from index `i` on. -/
def invokedOf : Nat → List PassNode → List Event
  | _, [] => []
  | i, p :: ps =>
    (if p.canExecute then [Event.invoked i] else []) ++ invokedOf (i + 1) ps

theorem executeAux_filter (fg : FrameGraph) (ps : List PassNode) (i : Nat) :
    (executeAux fg i ps).filter isInvokedEvt = invokedOf i ps := by
  induction ps generalizing i with
  | nil => rfl
  | cons p ps ih =>
    rw [executeAux, invokedOf, List.filter_append, passEvents_filter, ih]

theorem invokedOf_eq_range (fg : FrameGraph) (ps : List PassNode) (i : Nat)
    (hdrop : ∀ k, ps.get? k = fg.passNodes.get? (i + k)) :
    invokedOf i ps =
      ((List.range' i ps.length).filter (execFlag fg)).map Event.invoked := by
  induction ps generalizing i with
  | nil => rfl
  | cons p ps ih =>
    have h0 : fg.passNodes.get? i = some p := by
      have := hdrop 0
      simpa using this.symm
    have hflag : execFlag fg i = p.canExecute := by
      rw [execFlag, h0]
    have hdrop2 : ∀ k, ps.get? k = fg.passNodes.get? (i + 1 + k) := by
      intro k
      have hk := hdrop (k + 1)
      rw [List.get?_cons_succ] at hk
      rw [hk]
      congr 1
      omega
    rw [invokedOf, List.length_cons, List.range'_succ, List.filter_cons,
      ih (i + 1) hdrop2, hflag]
    by_cases hce : p.canExecute = true
    · rw [if_pos hce, if_pos hce]
      rfl
    · rw [if_neg hce, if_neg hce]
      rfl

/-- C8: the callback invocations of `execute()` are exactly the executable
passes, each exactly once, in declaration order (culled passes drop out
without reordering the rest). -/
theorem C8_execute_in_order (fg : FrameGraph) :
    fg.execute.filter isInvokedEvt =
      ((List.range fg.passNodes.length).filter (execFlag fg)).map
        Event.invoked ∧
    ∀ i, fg.execute.count (Event.invoked i) =
      if execFlag fg i then 1 else 0 := by
  have hmain : fg.execute.filter isInvokedEvt =
      ((List.range fg.passNodes.length).filter (execFlag fg)).map
        Event.invoked := by
    rw [FrameGraph.execute, executeAux_filter, List.range_eq_range']
    exact invokedOf_eq_range fg fg.passNodes 0 (fun k => by simp)
  refine ⟨hmain, ?_⟩
  intro i
  have hcount : fg.execute.count (Event.invoked i) =
      (fg.execute.filter isInvokedEvt).count (Event.invoked i) :=
    (List.count_filter rfl).symm
  rw [hcount, hmain, List.count_map_of_injective _ Event.invoked
    (fun a b hab => by cases hab; rfl) i]
  by_cases hf : execFlag fg i = true
  · rw [if_pos hf]
    refine List.count_eq_one_of_mem ((List.nodup_range _).filter _) ?_
    refine List.mem_filter.mpr ⟨List.mem_range.mpr ?_, hf⟩
    cases hg : fg.passNodes.get? i with
    | none => rw [execFlag, hg] at hf; cases hf
    | some p => exact get?_bound hg
  · rw [if_neg hf]
    refine List.count_eq_zero_of_not_mem ?_
    intro hmem
    exact hf (List.mem_filter.mp hmem).2

/-!
## C3: culling correctness of `execute()`
-/

theorem invoked_mem_execute (fg : FrameGraph) (i : Nat) :
    Event.invoked i ∈ fg.execute ↔ execFlag fg i = true := by
  have hfilter : Event.invoked i ∈ fg.execute ↔
      Event.invoked i ∈ fg.execute.filter isInvokedEvt := by
    constructor
    · intro h
      exact List.mem_filter.mpr ⟨h, rfl⟩
    · intro h
      exact (List.mem_filter.mp h).1
  rw [hfilter, FrameGraph.execute, executeAux_filter,
    invokedOf_eq_range fg fg.passNodes 0 (fun k => by simp),
    ← List.range_eq_range']
  constructor
  · intro h
    obtain ⟨j, hj, hje⟩ := List.mem_map.mp h
    cases hje
    exact (List.mem_filter.mp hj).2
  · intro h
    refine List.mem_map.mpr ⟨i, List.mem_filter.mpr ⟨?_, h⟩, rfl⟩
    refine List.mem_range.mpr ?_
    cases hg : fg.passNodes.get? i with
    | none => rw [execFlag, hg] at h; cases h
    | some p => exact get?_bound hg

/-- C3: after `compile()`, a pass whose reference count ended up zero and
which has no side effect never has its callback invoked by `execute()`,
and a pass with a side effect is always invoked, whatever its count. -/
theorem C3_culling_execute (fg fg' : FrameGraph)
    (hc : fg.compile = some fg') (i : Nat) (pass : PassNode)
    (hp : fg'.passNodes.get? i = some pass) :
    (pass.refCount = 0 → pass.hasSideEffect = false →
      Event.invoked i ∉ fg'.execute) ∧
    (pass.hasSideEffect = true → Event.invoked i ∈ fg'.execute) := by
  constructor
  · intro hrc hse hmem
    have hflag := (invoked_mem_execute fg' i).mp hmem
    simp only [execFlag, hp] at hflag
    simp only [PassNode.canExecute, hrc, hse] at hflag
    cases hflag
  · intro hse
    refine (invoked_mem_execute fg' i).mpr ?_
    simp only [execFlag, hp, PassNode.canExecute, hse]
    exact Bool.or_true _

def scP3C : PassNode :=
  { name := "P3", id := 2, exec := 2, creates := [], reads := [(1, 5)],
    writes := [], refCount := 0, hasSideEffect := true }

theorem C3_witness :
    scenarioC.compile = some scenarioCC ∧
    scenarioCC.passNodes.get? 2 = some scP3C ∧
    ((scP3C.refCount = 0 → scP3C.hasSideEffect = false →
      Event.invoked 2 ∉ scenarioCC.execute) ∧
    (scP3C.hasSideEffect = true → Event.invoked 2 ∈ scenarioCC.execute)) :=
  ⟨by decide, rfl, C3_culling_execute scenarioC scenarioCC (by decide) 2
    scP3C rfl⟩

/-!
## C5: the reference-counting phase
-/

/-- Number of entries of `l` whose resource id is `n`. -/
def countFst (l : List (Nat × Nat)) (n : Nat) : Nat :=
  l.countP (fun r => r.1 == n)

/-- Total number of read-list entries naming node `n` across all passes. -/
def readsCount : List PassNode → Nat → Nat
  | [], _ => 0
  | p :: ps, n => countFst p.reads n + readsCount ps n

/-- `k` 32-bit increments. -/
def iterIncr : Nat → Nat → Nat
  | 0, x => x
  | k + 1, x => iterIncr k ((x + 1) % U32)

/-- The index of the last pass (at positions `i, i+1, ...`, in declaration
order) whose write list names node `n`; `acc` if none does. -/
def lastWriterFrom : Nat → List PassNode → Nat → Option Nat → Option Nat
  | _, [], _, acc => acc
  | i, p :: ps, n, acc =>
    lastWriterFrom (i + 1) ps n
      (if countFst p.writes n = 0 then acc else some i)

theorem U32_pos : 0 < U32 := by decide

theorem iterIncr_eq (k x : Nat) (hx : x < U32) :
    iterIncr k x = (x + k) % U32 := by
  induction k generalizing x with
  | zero => exact (Nat.mod_eq_of_lt hx).symm
  | succ k ih =>
    rw [iterIncr, ih ((x + 1) % U32) (Nat.mod_lt _ U32_pos),
      Nat.mod_add_mod]
    congr 1
    omega

theorem iterIncr_lt (k x : Nat) (hx : x < U32) : iterIncr k x < U32 := by
  rw [iterIncr_eq k x hx]
  exact Nat.mod_lt _ U32_pos

theorem countFst_cons (r : Nat × Nat) (l : List (Nat × Nat)) (n : Nat) :
    countFst (r :: l) n = countFst l n + if r.1 = n then 1 else 0 := by
  by_cases h : r.1 = n
  · simp [countFst, List.countP_cons, h]
  · simp [countFst, List.countP_cons, h]

theorem bumpReads_get (l : List (Nat × Nat)) (nodes : List ResourceNode)
    (n : Nat) :
    (bumpReads nodes l).get? n = (nodes.get? n).map
      (fun nd => { nd with refCount := iterIncr (countFst l n) nd.refCount }) := by
  induction l generalizing nodes with
  | nil =>
    cases h : nodes.get? n with
    | none => rw [bumpReads, h]; rfl
    | some nd => rw [bumpReads, h]; rfl
  | cons r l ih =>
    rw [bumpReads, ih, countFst_cons]
    by_cases h : r.1 = n
    · rw [if_pos h, h, updAt_get_self, Option.map_map]
      cases nodes.get? n with
      | none => rfl
      | some nd => rfl
    · rw [if_neg h, updAt_get_other _ _ h, Nat.add_zero]

theorem setProducers_get (l : List (Nat × Nat)) (nodes : List ResourceNode)
    (i n : Nat) :
    (setProducers nodes i l).get? n = (nodes.get? n).map
      (fun nd => if countFst l n = 0 then nd
        else { nd with producer := some i }) := by
  induction l generalizing nodes with
  | nil =>
    cases h : nodes.get? n with
    | none => rw [setProducers, h]; rfl
    | some nd => rw [setProducers, h]; rfl
  | cons w l ih =>
    rw [setProducers, ih, countFst_cons]
    by_cases h : w.1 = n
    · rw [if_pos h, h, updAt_get_self, Option.map_map]
      cases nodes.get? n with
      | none => rfl
      | some nd =>
        simp only [Option.map_some', Function.comp_apply]
        by_cases hz : countFst l n = 0
        · rw [if_pos hz, if_neg (Nat.succ_ne_zero (countFst l n))]
        · rw [if_neg hz, if_neg (Nat.succ_ne_zero (countFst l n))]
    · rw [if_neg h, updAt_get_other _ _ h, Nat.add_zero]

theorem phase1Nodes_get (ps : List PassNode) (nodes : List ResourceNode)
    (i n : Nat) (nd : ResourceNode) (h : nodes.get? n = some nd)
    (hrc : nd.refCount < U32) :
    (phase1Nodes nodes i ps).get? n = some
      { nd with refCount := (nd.refCount + readsCount ps n) % U32,
                producer := lastWriterFrom i ps n nd.producer } := by
  induction ps generalizing nodes i nd with
  | nil =>
    rw [phase1Nodes, h, readsCount, lastWriterFrom, Nat.add_zero,
      Nat.mod_eq_of_lt hrc]
  | cons p ps ih =>
    rw [phase1Nodes]
    have hmid : (setProducers (bumpReads nodes p.reads) i p.writes).get? n =
        some (if countFst p.writes n = 0 then
          { nd with refCount := iterIncr (countFst p.reads n) nd.refCount }
        else
          { nd with refCount := iterIncr (countFst p.reads n) nd.refCount,
                    producer := some i }) := by
      rw [setProducers_get, bumpReads_get, h]
      by_cases hz : countFst p.writes n = 0
      · rw [if_pos hz]
        simp only [Option.map_some']
        rw [if_pos hz]
      · rw [if_neg hz]
        simp only [Option.map_some']
        rw [if_neg hz]
    by_cases hz : countFst p.writes n = 0
    · rw [if_pos hz] at hmid
      rw [ih _ (i + 1) _ hmid (iterIncr_lt _ _ hrc)]
      rw [readsCount, lastWriterFrom, if_pos hz]
      rw [iterIncr_eq _ _ hrc, Nat.mod_add_mod, ← Nat.add_assoc]
    · rw [if_neg hz] at hmid
      rw [ih _ (i + 1) _ hmid (iterIncr_lt _ _ hrc)]
      rw [readsCount, lastWriterFrom, if_neg hz]
      rw [iterIncr_eq _ _ hrc, Nat.mod_add_mod, ← Nat.add_assoc]

theorem refCountingPhase_spec (fg : FrameGraph)
    (hnodes : ∀ nd ∈ fg.resourceNodes, nd.refCount = 0 ∧ nd.producer = none)
    (hreads : ∀ n, readsCount fg.passNodes n < U32)
    (hw : ∀ p ∈ fg.passNodes, p.writes.length < U32) :
    (∀ i p, fg.passNodes.get? i = some p →
      (refCountingPhase fg).passNodes.get? i =
        some { p with refCount := p.writes.length }) ∧
    (∀ n nd, fg.resourceNodes.get? n = some nd →
      (refCountingPhase fg).resourceNodes.get? n =
        some { nd with refCount := readsCount fg.passNodes n,
                       producer := lastWriterFrom 0 fg.passNodes n none }) := by
  constructor
  · intro i p hp
    show ((fg.passNodes.map _).get? i) = _
    rw [List.get?_map, hp, Option.map_some']
    rw [Nat.mod_eq_of_lt (hw p ((List.get?_eq_some.mp hp).2 ▸
      List.get_mem _ _ _))]
  · intro n nd hn
    obtain ⟨hrc0, hpr0⟩ := hnodes nd ((List.get?_eq_some.mp hn).2 ▸
      List.get_mem _ _ _)
    show (phase1Nodes fg.resourceNodes 0 fg.passNodes).get? n = _
    rw [phase1Nodes_get fg.passNodes fg.resourceNodes 0 n nd hn
      (hrc0 ▸ U32_pos), hrc0, hpr0, Nat.zero_add,
      Nat.mod_eq_of_lt (hreads n)]

/-- C5: after the first phase of `compile()`, every pass's reference count
equals the length of its write list, every resource node's reference count
equals the number of read-list entries naming it across all passes, and its
producer is the last pass in declaration order that writes it (untouched
when no pass does). -/
theorem C5_reference_counting (fg : FrameGraph)
    (hnodes : ∀ nd ∈ fg.resourceNodes, nd.refCount = 0 ∧ nd.producer = none)
    (hreads : ∀ n, readsCount fg.passNodes n < U32)
    (hw : ∀ p ∈ fg.passNodes, p.writes.length < U32) :
    (∀ i p, fg.passNodes.get? i = some p →
      (refCountingPhase fg).passNodes.get? i =
        some { p with refCount := p.writes.length }) ∧
    (∀ n nd, fg.resourceNodes.get? n = some nd →
      (refCountingPhase fg).resourceNodes.get? n =
        some { nd with refCount := readsCount fg.passNodes n,
                       producer := lastWriterFrom 0 fg.passNodes n none }) :=
  refCountingPhase_spec fg hnodes hreads hw

def totalReads : List PassNode → Nat
  | [] => 0
  | p :: ps => p.reads.length + totalReads ps

theorem readsCount_le_totalReads (ps : List PassNode) (n : Nat) :
    readsCount ps n ≤ totalReads ps := by
  induction ps with
  | nil => exact Nat.le_refl 0
  | cons p ps ih =>
    rw [readsCount, totalReads]
    exact Nat.add_le_add (List.countP_le_length _) ih

theorem C5_witness :
    (∀ nd ∈ scenarioC.resourceNodes, nd.refCount = 0 ∧ nd.producer = none) ∧
    (∀ n, readsCount scenarioC.passNodes n < U32) ∧
    (∀ p ∈ scenarioC.passNodes, p.writes.length < U32) ∧
    ((∀ i p, scenarioC.passNodes.get? i = some p →
      (refCountingPhase scenarioC).passNodes.get? i =
        some { p with refCount := p.writes.length }) ∧
    (∀ n nd, scenarioC.resourceNodes.get? n = some nd →
      (refCountingPhase scenarioC).resourceNodes.get? n =
        some { nd with refCount := readsCount scenarioC.passNodes n,
                       producer :=
                         lastWriterFrom 0 scenarioC.passNodes n none })) := by
  have h1 : ∀ nd ∈ scenarioC.resourceNodes,
      nd.refCount = 0 ∧ nd.producer = none := by decide
  have h2 : ∀ n, readsCount scenarioC.passNodes n < U32 := fun n =>
    Nat.lt_of_le_of_lt (readsCount_le_totalReads _ n) (by decide)
  have h3 : ∀ p ∈ scenarioC.passNodes, p.writes.length < U32 := by decide
  exact ⟨h1, h2, h3, C5_reference_counting scenarioC h1 h2 h3⟩

/-!
## C6: the lifetime phase
-/

/-- Whether some node id in `ids` is backed by registry entry `j`. -/
def hitsEntry (nodes : List ResourceNode) (ids : List Nat) (j : Nat) : Bool :=
  ids.any (fun id => entryIdxOf nodes id == some j)

/-- Whether some (id, flags) element of `l` is backed by entry `j`. -/
def usesHit (nodes : List ResourceNode) (l : List (Nat × Nat)) (j : Nat) :
    Bool :=
  l.any (fun r => entryIdxOf nodes r.1 == some j)

/-- The index of the last pass (from position `i` on, declaration order)
that survives culling (reference count nonzero) and creates a node backed
by entry `j`; `acc` when none does. -/
def lastCreatorFrom :
    Nat → List PassNode → List ResourceNode → Nat → Option Nat → Option Nat
  | _, [], _, _, acc => acc
  | i, p :: ps, nodes, j, acc =>
    lastCreatorFrom (i + 1) ps nodes j
      (if p.refCount != 0 && hitsEntry nodes p.creates j then some i else acc)

/-- The index of the last pass (from position `i` on, declaration order)
that survives culling and writes or reads a node backed by entry `j`;
`acc` when none does. -/
def lastUserFrom :
    Nat → List PassNode → List ResourceNode → Nat → Option Nat → Option Nat
  | _, [], _, _, acc => acc
  | i, p :: ps, nodes, j, acc =>
    lastUserFrom (i + 1) ps nodes j
      (if p.refCount != 0 &&
          (usesHit nodes p.writes j || usesHit nodes p.reads j)
        then some i else acc)

theorem phase3Creates_get (nodes : List ResourceNode) (i : Nat)
    (l : List Nat) (registry : List ResourceEntry) (j : Nat) :
    (phase3Creates nodes i registry l).get? j = (registry.get? j).map
      (fun e => if hitsEntry nodes l j then { e with producer := some i }
        else e) := by
  induction l generalizing registry with
  | nil =>
    cases h : registry.get? j with
    | none => rw [phase3Creates, h]; rfl
    | some e => rw [phase3Creates, h]; rfl
  | cons id l ih =>
    cases hid : entryIdxOf nodes id with
    | none =>
      rw [phase3Creates, hid, ih]
      have hcond : hitsEntry nodes (id :: l) j = hitsEntry nodes l j := by
        simp [hitsEntry, hid]
      rw [hcond]
    | some j0 =>
      rw [phase3Creates, hid, ih]
      by_cases hj : j0 = j
      · subst hj
        rw [updAt_get_self, Option.map_map]
        have hcond : hitsEntry nodes (id :: l) j0 = true := by
          simp [hitsEntry, hid]
        rw [hcond]
        cases registry.get? j0 with
        | none => rfl
        | some e =>
          simp only [Option.map_some', Function.comp_apply, if_true]
          by_cases hz : hitsEntry nodes l j0 = true
          · rw [if_pos hz]
          · rw [if_neg hz]
      · rw [updAt_get_other _ _ hj]
        have hcond : hitsEntry nodes (id :: l) j = hitsEntry nodes l j := by
          simp [hitsEntry, hid]
          intro hcontra
          exact absurd hcontra hj
        rw [hcond]

theorem phase3Uses_get (nodes : List ResourceNode) (i : Nat)
    (l : List (Nat × Nat)) (registry : List ResourceEntry) (j : Nat) :
    (phase3Uses nodes i registry l).get? j = (registry.get? j).map
      (fun e => if usesHit nodes l j then { e with last := some i }
        else e) := by
  induction l generalizing registry with
  | nil =>
    cases h : registry.get? j with
    | none => rw [phase3Uses, h]; rfl
    | some e => rw [phase3Uses, h]; rfl
  | cons r l ih =>
    cases hid : entryIdxOf nodes r.1 with
    | none =>
      rw [phase3Uses, hid, ih]
      have hcond : usesHit nodes (r :: l) j = usesHit nodes l j := by
        simp [usesHit, hid]
      rw [hcond]
    | some j0 =>
      rw [phase3Uses, hid, ih]
      by_cases hj : j0 = j
      · subst hj
        rw [updAt_get_self, Option.map_map]
        have hcond : usesHit nodes (r :: l) j0 = true := by
          simp [usesHit, hid]
        rw [hcond]
        cases registry.get? j0 with
        | none => rfl
        | some e =>
          simp only [Option.map_some', Function.comp_apply, if_true]
          by_cases hz : usesHit nodes l j0 = true
          · rw [if_pos hz]
          · rw [if_neg hz]
      · rw [updAt_get_other _ _ hj]
        have hcond : usesHit nodes (r :: l) j = usesHit nodes l j := by
          simp [usesHit, hid]
          intro hcontra
          exact absurd hcontra hj
        rw [hcond]

theorem lifetimeAux_get (ps : List PassNode) (nodes : List ResourceNode)
    (i : Nat) (registry : List ResourceEntry) (j : Nat) (e : ResourceEntry)
    (h : registry.get? j = some e) :
    (lifetimeAux nodes i registry ps).get? j = some
      { e with producer := lastCreatorFrom i ps nodes j e.producer,
               last := lastUserFrom i ps nodes j e.last } := by
  induction ps generalizing i registry e with
  | nil => rw [lifetimeAux, h, lastCreatorFrom, lastUserFrom]
  | cons p ps ih =>
    by_cases hrc : p.refCount = 0
    · rw [lifetimeAux, if_pos hrc, ih _ _ _ h, lastCreatorFrom, lastUserFrom]
      have hbne : (p.refCount != 0) = false := by
        simp [hrc]
      rw [hbne, Bool.false_and, Bool.false_and, if_neg Bool.false_ne_true,
        if_neg Bool.false_ne_true]
    · have hbne : (p.refCount != 0) = true := by
        simpa [bne_iff_ne] using hrc
      have hreg1 : (phase3Uses nodes i
          (phase3Uses nodes i (phase3Creates nodes i registry p.creates)
            p.writes) p.reads).get? j = some
          { e with
            producer := if hitsEntry nodes p.creates j then some i
              else e.producer,
            last := if usesHit nodes p.writes j || usesHit nodes p.reads j
              then some i else e.last } := by
        rw [phase3Uses_get, phase3Uses_get, phase3Creates_get, h]
        simp only [Option.map_some', Function.comp_apply]
        by_cases hc1 : hitsEntry nodes p.creates j = true
        · rw [if_pos hc1, if_pos hc1]
          by_cases hw1 : usesHit nodes p.writes j = true
          · rw [if_pos hw1]
            by_cases hr1 : usesHit nodes p.reads j = true
            · rw [if_pos hr1]
              simp [hw1, hr1]
            · rw [if_neg hr1]
              simp [hw1]
          · rw [if_neg hw1]
            by_cases hr1 : usesHit nodes p.reads j = true
            · rw [if_pos hr1]
              simp [hr1]
            · rw [if_neg hr1]
              rw [if_neg (by simp [hw1, hr1])]
        · rw [if_neg hc1, if_neg hc1]
          by_cases hw1 : usesHit nodes p.writes j = true
          · rw [if_pos hw1]
            by_cases hr1 : usesHit nodes p.reads j = true
            · rw [if_pos hr1]
              simp [hw1, hr1]
            · rw [if_neg hr1]
              simp [hw1]
          · rw [if_neg hw1]
            by_cases hr1 : usesHit nodes p.reads j = true
            · rw [if_pos hr1]
              simp [hr1]
            · rw [if_neg hr1]
              rw [if_neg (by simp [hw1, hr1])]
      rw [lifetimeAux, if_neg hrc, ih _ _ _ hreg1, lastCreatorFrom,
        lastUserFrom, hbne, Bool.true_and, Bool.true_and]

/-- C6: after `compile()`, an entry's producer is the latest surviving
(reference count nonzero) pass that creates it, and its recorded last use
is the latest surviving pass that writes or reads any version of it;
culled passes contribute to neither, and when no surviving pass qualifies
the field keeps its pre-compile value. -/
theorem C6_lifetime_fields (fg fg' : FrameGraph)
    (hc : fg.compile = some fg') (j : Nat) (e0 e' : ResourceEntry)
    (h0 : fg.resourceRegistry.get? j = some e0)
    (h' : fg'.resourceRegistry.get? j = some e') :
    e'.producer =
      lastCreatorFrom 0 fg'.passNodes fg'.resourceNodes j e0.producer ∧
    e'.last = lastUserFrom 0 fg'.passNodes fg'.resourceNodes j e0.last := by
  unfold FrameGraph.compile at hc
  cases hcl : cullLoop ((refCountingPhase fg).resourceNodes.length + 1)
      { passes := (refCountingPhase fg).passNodes,
        nodes := (refCountingPhase fg).resourceNodes,
        stack := seedStack (refCountingPhase fg).resourceNodes,
        popped := [] } with
  | none =>
    simp only [hcl] at hc
    cases hc
  | some s =>
    simp only [hcl] at hc
    cases hc
    have hreg := lifetimeAux_get s.passes s.nodes 0 fg.resourceRegistry j
      e0 h0
    have hre : (lifetimePhase
        { refCountingPhase fg with passNodes := s.passes, resourceNodes := s.nodes }).resourceRegistry.get? j =
        some { e0 with
          producer := lastCreatorFrom 0 s.passes s.nodes j e0.producer,
          last := lastUserFrom 0 s.passes s.nodes j e0.last } := hreg
    rw [hre] at h'
    cases h'
    exact ⟨rfl, rfl⟩

theorem C6_witness :
    scenarioC.compile = some scenarioCC ∧
    scenarioC.resourceRegistry.get? 0 = some
      { version := 2, imported := false, producer := none, last := none } ∧
    scenarioCC.resourceRegistry.get? 0 = some
      { version := 2, imported := false, producer := some 0,
        last := some 1 } ∧
    (({ version := 2, imported := false, producer := some 0,
        last := some 1 } : ResourceEntry).producer =
      lastCreatorFrom 0 scenarioCC.passNodes scenarioCC.resourceNodes 0
        ({ version := 2, imported := false, producer := none,
           last := none } : ResourceEntry).producer ∧
    ({ version := 2, imported := false, producer := some 0,
        last := some 1 } : ResourceEntry).last =
      lastUserFrom 0 scenarioCC.passNodes scenarioCC.resourceNodes 0
        ({ version := 2, imported := false, producer := none,
           last := none } : ResourceEntry).last) :=
  ⟨by decide, rfl, rfl,
    C6_lifetime_fields scenarioC scenarioCC (by decide) 0 _ _ rfl rfl⟩

/-- C4 fails on the code: in the spec's own Scenario C, P3 (reference
count 0 because it writes nothing, but side-effecting, hence executing)
reads entry 0's clone, yet the lifetime phase of `compile()` skips
reference-count-zero passes, records P2 as entry 0's last user, and
`execute()` therefore destroys the transient entry right after P2 —
before executing pass P3 dispatches its pre-read hook and callback on it.
The trace shows `destroyed 0` strictly before `invoked 2` although pass 2
executes and reads entry 0. -/
theorem C4_destroyed_before_last_executing_user :
    scenarioC.compile = some scenarioCC ∧
    scenarioCC.execute =
      [Event.created 0, Event.preWrite 0 7, Event.invoked 0,
       Event.preWrite 0 7, Event.invoked 1, Event.destroyed 0,
       Event.preRead 0 5, Event.invoked 2] ∧
    execFlag scenarioCC 2 = true ∧
    scenarioCC.passNodes.get? 2 = some scP3C ∧
    usesHit scenarioCC.resourceNodes scP3C.reads 0 = true ∧
    (∃ e0, scenarioCC.resourceRegistry.get? 0 = some e0 ∧
      e0.isTransient = true) ∧
    (∃ t1 t2, scenarioCC.execute = t1 ++ Event.destroyed 0 :: t2 ∧
      Event.invoked 2 ∈ t2) := by
  refine ⟨by decide, by decide, by decide, by decide, by decide,
    ⟨_, rfl, by decide⟩,
    ⟨[Event.created 0, Event.preWrite 0 7, Event.invoked 0,
      Event.preWrite 0 7, Event.invoked 1],
     [Event.preRead 0 5, Event.invoked 2], by decide, by decide⟩⟩

/-!
## C9: the culling loop's assertion holds and the loop terminates

The development follows the usual loop-invariant pattern: `CullInv` is
preserved by every `popStep`, implies that the source's
`assert(producer->m_refCount >= 1)` holds at every decrement, and bounds
the number of iterations by the number of resource nodes (every node is
popped at most once).
-/

/-- The producer back-reference of node `k` (`none` out of bounds). -/
def producerOf (nodes : List ResourceNode) (k : Nat) : Option Nat :=
  match nodes.get? k with
  | some nd => nd.producer
  | none => none

/-- Number of popped nodes whose producer is pass `p`. -/
def countProd (popped : List Nat) (nodes : List ResourceNode) (p : Nat) : Nat :=
  (popped.filter (fun k => producerOf nodes k == some p)).length

/-- A pass is dead when culling has driven its reference count to zero:
no side effect, zero count, and a nonempty write list (so the count did
start positive). -/
def isDead (p : PassNode) : Bool :=
  !p.hasSideEffect && (p.refCount == 0) && !(p.writes.isEmpty)

/-- Total read multiplicity of node `n` over all currently dead passes. -/
def deadSum : List PassNode → Nat → Nat
  | [], _ => 0
  | p :: ps, n =>
    (if isDead p then countFst p.reads n else 0) + deadSum ps n

theorem decr_eq_sub (x : Nat) (h0 : x ≠ 0) (hlt : x < U32) :
    decr x = x - 1 := by
  have hU : U32 = 4294967296 := rfl
  rw [decr, hU]
  rw [hU] at hlt
  omega

theorem nodup_lt_length {l : List Nat} (hn : l.Nodup) {m : Nat}
    (hb : ∀ x ∈ l, x < m) : l.length ≤ m := by
  have hcard : l.toFinset.card = l.length := List.toFinset_card_of_nodup hn
  have hsub : l.toFinset ⊆ Finset.range m := by
    intro x hx
    exact Finset.mem_range.mpr (hb x (List.mem_toFinset.mp hx))
  have := Finset.card_le_card hsub
  rw [hcard, Finset.card_range] at this
  exact this

theorem rcN_cons_succ (nd : ResourceNode) (rest : List ResourceNode)
    (m : Nat) : rcN (nd :: rest) (m + 1) = rcN rest m := rfl

theorem seedStackAux_spec (nodes : List ResourceNode) :
    ∀ (i : Nat) (acc : List Nat), (∀ a ∈ acc, a < i) → acc.Nodup →
      (seedStackAux i nodes acc).Nodup ∧
      (∀ k ∈ seedStackAux i nodes acc,
        k ∈ acc ∨ (i ≤ k ∧ k < i + nodes.length ∧ rcN nodes (k - i) = 0)) := by
  induction nodes with
  | nil =>
    intro i acc hlt hnd
    exact ⟨hnd, fun k hk => Or.inl hk⟩
  | cons nd rest ih =>
    intro i acc hlt hnd
    by_cases hz : nd.refCount = 0
    · have hacc1 : ∀ a ∈ (i :: acc), a < i + 1 := by
        intro a ha
        cases ha with
        | head => omega
        | tail _ hmem => exact Nat.lt_succ_of_lt (hlt a hmem)
      have hnd1 : (i :: acc).Nodup := by
        refine List.nodup_cons.mpr ⟨?_, hnd⟩
        intro hmem
        exact absurd (hlt i hmem) (lt_irrefl i)
      obtain ⟨hna, hma⟩ := ih (i + 1) (i :: acc) hacc1 hnd1
      rw [seedStackAux, if_pos hz]
      refine ⟨hna, ?_⟩
      intro k hk
      rcases hma k hk with hin | ⟨hge, hub, hrc⟩
      · cases hin with
        | head =>
          refine Or.inr ⟨Nat.le_refl i, ?_, ?_⟩
          · simp
          · rw [Nat.sub_self]
            exact hz
        | tail _ hmem => exact Or.inl hmem
      · refine Or.inr ⟨by omega, by simp; omega, ?_⟩
        have hk1 : k - i = (k - (i + 1)) + 1 := by omega
        rw [hk1, rcN_cons_succ]
        exact hrc
    · have hacc1 : ∀ a ∈ acc, a < i + 1 := fun a ha =>
        Nat.lt_succ_of_lt (hlt a ha)
      obtain ⟨hna, hma⟩ := ih (i + 1) acc hacc1 hnd
      rw [seedStackAux, if_neg hz]
      refine ⟨hna, ?_⟩
      intro k hk
      rcases hma k hk with hin | ⟨hge, hub, hrc⟩
      · exact Or.inl hin
      · refine Or.inr ⟨by omega, by simp; omega, ?_⟩
        have hk1 : k - i = (k - (i + 1)) + 1 := by omega
        rw [hk1, rcN_cons_succ]
        exact hrc

theorem seedStack_spec (nodes : List ResourceNode) :
    (seedStack nodes).Nodup ∧
      ∀ k ∈ seedStack nodes, k < nodes.length ∧ rcN nodes k = 0 := by
  obtain ⟨hnd, hmem⟩ := seedStackAux_spec nodes 0 [] (fun a ha => absurd ha
    (List.not_mem_nil a)) List.nodup_nil
  refine ⟨hnd, ?_⟩
  intro k hk
  rcases hmem k hk with hin | ⟨_, hub, hrc⟩
  · cases hin
  · rw [Nat.zero_add] at hub
    rw [Nat.sub_zero] at hrc
    exact ⟨hub, hrc⟩

theorem passShape_fields {p q : PassNode} (h : passShape p = passShape q) :
    p.creates = q.creates ∧ p.reads = q.reads ∧ p.writes = q.writes ∧
      p.hasSideEffect = q.hasSideEffect := by
  simp only [passShape, Prod.mk.injEq] at h
  exact ⟨h.2.2.2.1, h.2.2.2.2.1, h.2.2.2.2.2.1, h.2.2.2.2.2.2⟩

theorem readsCount_congr {ps ps' : List PassNode}
    (h : ps.map passShape = ps'.map passShape) (n : Nat) :
    readsCount ps n = readsCount ps' n := by
  induction ps generalizing ps' with
  | nil =>
    cases ps' with
    | nil => rfl
    | cons q qs => cases h
  | cons p psr ih =>
    cases ps' with
    | nil => cases h
    | cons q qs =>
      rw [List.map_cons, List.map_cons] at h
      have hhead := List.head_eq_of_cons_eq h
      have htail := List.tail_eq_of_cons_eq h
      rw [readsCount, readsCount, (passShape_fields hhead).2.1, ih htail]

theorem rcN_eq {nodes : List ResourceNode} {n : Nat} {nd : ResourceNode}
    (h : nodes.get? n = some nd) : rcN nodes n = nd.refCount := by
  rw [rcN, h]

theorem rcN_updAt_self (nodes : List ResourceNode) (i k : Nat)
    (hi : i < nodes.length) :
    rcN (updAt (fun x => { x with refCount := k }) nodes i) i = k := by
  cases h : nodes.get? i with
  | none => exact absurd (List.get?_eq_none.mp h) (Nat.not_le_of_lt hi)
  | some nd =>
    rw [rcN, updAt_get_self, h, Option.map_some']

theorem rcN_updAt_other (f : ResourceNode → ResourceNode)
    (nodes : List ResourceNode) {i j : Nat} (h : i ≠ j) :
    rcN (updAt f nodes i) j = rcN nodes j := by
  rw [rcN, rcN, updAt_get_other _ _ h]

theorem producerOf_updAt_rc (nodes : List ResourceNode) (i k j : Nat) :
    producerOf (updAt (fun x => { x with refCount := k }) nodes i) j =
      producerOf nodes j := by
  by_cases h : i = j
  · subst h
    rw [producerOf, producerOf, updAt_get_self]
    cases nodes.get? i with
    | none => rfl
    | some nd => rfl
  · rw [producerOf, producerOf, updAt_get_other _ _ h]

theorem deadSum_le_readsCount (ps : List PassNode) (n : Nat) :
    deadSum ps n ≤ readsCount ps n := by
  induction ps with
  | nil => exact Nat.le_refl 0
  | cons p psr ih =>
    rw [deadSum, readsCount]
    refine Nat.add_le_add ?_ ih
    by_cases hd : isDead p = true
    · rw [if_pos hd]
    · rw [if_neg hd]
      exact Nat.zero_le _

theorem deadSum_add_le (ps : List PassNode) (n p : Nat) (pass : PassNode)
    (hp : ps.get? p = some pass) (hnd : isDead pass = false) :
    deadSum ps n + countFst pass.reads n ≤ readsCount ps n := by
  induction ps generalizing p with
  | nil => cases hp
  | cons q qs ih =>
    cases p with
    | zero =>
      cases hp
      rw [deadSum, readsCount, hnd]
      simp only [Bool.false_eq_true, if_false, Nat.zero_add]
      rw [Nat.add_comm (deadSum qs n)]
      exact Nat.add_le_add (Nat.le_refl _) (deadSum_le_readsCount qs n)
    | succ m =>
      rw [deadSum, readsCount, Nat.add_assoc]
      refine Nat.add_le_add ?_ (ih m hp)
      by_cases hd : isDead q = true
      · rw [if_pos hd]
      · rw [if_neg hd]
        exact Nat.zero_le _

theorem deadSum_updAt_same (ps : List PassNode) (p : Nat) (pass : PassNode)
    (k n : Nat) (hp : ps.get? p = some pass)
    (hold : isDead pass = false)
    (hnew : isDead { pass with refCount := k } = false) :
    deadSum (updAt (fun q => { q with refCount := k }) ps p) n =
      deadSum ps n := by
  induction ps generalizing p with
  | nil => rfl
  | cons q qs ih =>
    cases p with
    | zero =>
      cases hp
      rw [updAt, deadSum, deadSum, hold, hnew]
    | succ m =>
      rw [updAt, deadSum, deadSum, ih m hp]

theorem deadSum_updAt_dead (ps : List PassNode) (p : Nat) (pass : PassNode)
    (k n : Nat) (hp : ps.get? p = some pass)
    (hold : isDead pass = false)
    (hnew : isDead { pass with refCount := k } = true) :
    deadSum (updAt (fun q => { q with refCount := k }) ps p) n =
      deadSum ps n + countFst pass.reads n := by
  induction ps generalizing p with
  | nil => cases hp
  | cons q qs ih =>
    cases p with
    | zero =>
      cases hp
      rw [updAt, deadSum, deadSum, hold, hnew]
      simp only [Bool.false_eq_true, if_false, if_pos]
      omega
    | succ m =>
      rw [updAt, deadSum, deadSum, ih m hp]
      omega

theorem deadSum_all_live (ps : List PassNode) (n : Nat)
    (h : ∀ pass ∈ ps, pass.refCount = pass.writes.length) :
    deadSum ps n = 0 := by
  induction ps with
  | nil => rfl
  | cons p psr ih =>
    rw [deadSum, ih (fun pass hm => h pass (List.mem_cons_of_mem p hm))]
    have hd : isDead p = false := by
      rw [isDead]
      have hrc := h p (List.mem_cons_self p psr)
      cases hw : p.writes with
      | nil => simp [List.isEmpty]
      | cons a l =>
        have : p.refCount ≠ 0 := by
          rw [hrc, hw]
          simp
        simp [this]
    rw [hd]
    simp

theorem decReads_spec (l : List (Nat × Nat)) (nodes : List ResourceNode)
    (stack : List Nat)
    (hb : ∀ r ∈ l, r.1 < nodes.length)
    (hle : ∀ k, countFst l k ≤ rcN nodes k)
    (hlt : ∀ k, rcN nodes k < U32) :
    (∀ k, rcN (decReads nodes stack l).1 k = rcN nodes k - countFst l k) ∧
    (decReads nodes stack l).1.length = nodes.length ∧
    (∀ k, producerOf (decReads nodes stack l).1 k = producerOf nodes k) ∧
    ∃ pushes, (decReads nodes stack l).2 = pushes ++ stack ∧ pushes.Nodup ∧
      (∀ k, k ∈ pushes ↔ (countFst l k ≠ 0 ∧ rcN nodes k = countFst l k)) := by
  induction l generalizing nodes stack with
  | nil =>
    refine ⟨?_, rfl, fun k => rfl, [], rfl, List.nodup_nil, ?_⟩
    · intro k
      rw [decReads]
      show rcN nodes k = rcN nodes k - countFst [] k
      rw [countFst, List.countP_nil, Nat.sub_zero]
    · intro k
      constructor
      · intro hk
        cases hk
      · intro ⟨hne, _⟩
        rw [countFst, List.countP_nil] at hne
        exact absurd rfl hne
  | cons r l ih =>
    have hr1 : r.1 < nodes.length := hb r (List.mem_cons_self r l)
    cases hnd : nodes.get? r.1 with
    | none => exact absurd (List.get?_eq_none.mp hnd) (Nat.not_le_of_lt hr1)
    | some nd =>
      have hrcv : rcN nodes r.1 = nd.refCount := rcN_eq hnd
      have hcnt1 : countFst (r :: l) r.1 = countFst l r.1 + 1 := by
        rw [countFst_cons, if_pos rfl]
      have hge1 : 1 ≤ nd.refCount := by
        have := hle r.1
        rw [hcnt1, hrcv] at this
        omega
      have hltr : nd.refCount < U32 := by
        have := hlt r.1
        rw [hrcv] at this
        exact this
      have hdecr : decr nd.refCount = nd.refCount - 1 :=
        decr_eq_sub nd.refCount (by omega) hltr
      have hstep := decReadStep_some nodes stack r.1 nd hnd
      have hrun : decReads nodes stack (r :: l) =
          decReads (updAt (fun x => { x with refCount := decr nd.refCount })
            nodes r.1)
            (if decr nd.refCount = 0 then r.1 :: stack else stack) l := by
        rw [decReads, hstep]
      set nodes1 := updAt (fun x => { x with refCount := decr nd.refCount })
        nodes r.1 with hnodes1
      have hlen1 : nodes1.length = nodes.length := updAt_length _ _ _
      have hrc1self : rcN nodes1 r.1 = nd.refCount - 1 := by
        rw [hnodes1, rcN_updAt_self _ _ _ hr1, hdecr]
      have hrc1other : ∀ k, k ≠ r.1 → rcN nodes1 k = rcN nodes k := by
        intro k hk
        rw [hnodes1, rcN_updAt_other _ _ (fun h => hk h.symm)]
      have hcnt_other : ∀ k, k ≠ r.1 → countFst (r :: l) k = countFst l k := by
        intro k hk
        rw [countFst_cons, if_neg (fun h => hk h.symm), Nat.add_zero]
      have hle1 : ∀ k, countFst l k ≤ rcN nodes1 k := by
        intro k
        by_cases hk : k = r.1
        · subst hk
          rw [hrc1self]
          have hh := hle r.1
          rw [hcnt1, hrcv] at hh
          omega
        · rw [hrc1other k hk]
          have := hle k
          rw [hcnt_other k hk] at this
          exact this
      have hlt1 : ∀ k, rcN nodes1 k < U32 := by
        intro k
        by_cases hk : k = r.1
        · subst hk
          rw [hrc1self]
          omega
        · rw [hrc1other k hk]
          exact hlt k
      have hb1 : ∀ r2 ∈ l, r2.1 < nodes1.length := by
        intro r2 hr2
        rw [hlen1]
        exact hb r2 (List.mem_cons_of_mem r hr2)
      obtain ⟨ihrc, ihlen, ihprod, pushes, ihstack, ihnodup, ihmem⟩ :=
        ih nodes1 (if decr nd.refCount = 0 then r.1 :: stack else stack)
          hb1 hle1 hlt1
      have hcntle : countFst l r.1 ≤ nd.refCount - 1 := by
        have := hle1 r.1
        rw [hrc1self] at this
        exact this
      refine ⟨?_, ?_, ?_, ?_⟩
      · intro k
        rw [hrun, ihrc k]
        by_cases hk : k = r.1
        · subst hk
          rw [hrc1self, hcnt1, hrcv]
          omega
        · rw [hrc1other k hk, hcnt_other k hk]
      · rw [hrun, ihlen, hlen1]
      · intro k
        rw [hrun, ihprod k, hnodes1, producerOf_updAt_rc]
      · by_cases hz : decr nd.refCount = 0
        · have hrc1 : nd.refCount = 1 := by omega
          have hcl0 : countFst l r.1 = 0 := by omega
          rw [if_pos hz] at ihstack
          refine ⟨pushes ++ [r.1], ?_, ?_, ?_⟩
          · rw [hrun, if_pos hz, ihstack, List.append_assoc,
              List.singleton_append]
          · have hnotmem : r.1 ∉ pushes := by
              intro hmem
              obtain ⟨hne, heq⟩ := (ihmem r.1).mp hmem
              rw [hrc1self] at heq
              omega
            rw [List.nodup_append]
            exact ⟨ihnodup, List.nodup_singleton _,
              fun a ha hb2 => hnotmem ((List.mem_singleton.mp hb2) ▸ ha)⟩
          · intro k
            rw [List.mem_append, List.mem_singleton]
            constructor
            · intro hk
              cases hk with
              | inl hmem =>
                obtain ⟨hne, heq⟩ := (ihmem k).mp hmem
                have hkne : k ≠ r.1 := by
                  intro hkr
                  subst hkr
                  rw [hrc1self] at heq
                  omega
                refine ⟨?_, ?_⟩
                · rw [hcnt_other k hkne]
                  exact hne
                · rw [hcnt_other k hkne, ← hrc1other k hkne]
                  exact heq
              | inr hkr =>
                subst hkr
                rw [hcnt1, hrcv, hcl0, hrc1]
                exact ⟨by omega, rfl⟩
            · intro ⟨hne, heq⟩
              by_cases hk : k = r.1
              · exact Or.inr hk
              · refine Or.inl ((ihmem k).mpr ⟨?_, ?_⟩)
                · rw [← hcnt_other k hk]
                  exact hne
                · rw [hrc1other k hk, ← hcnt_other k hk]
                  exact heq
        · rw [if_neg hz] at ihstack
          refine ⟨pushes, by rw [hrun, if_neg hz, ihstack], ihnodup, ?_⟩
          intro k
          constructor
          · intro hmem
            obtain ⟨hne, heq⟩ := (ihmem k).mp hmem
            by_cases hk : k = r.1
            · subst hk
              rw [hrc1self] at heq
              rw [hcnt1, hrcv]
              omega
            · refine ⟨?_, ?_⟩
              · rw [hcnt_other k hk]
                exact hne
              · rw [hcnt_other k hk, ← hrc1other k hk]
                exact heq
          · intro ⟨hne, heq⟩
            by_cases hk : k = r.1
            · subst hk
              rw [hcnt1] at hne heq
              rw [hrcv] at heq
              refine (ihmem r.1).mpr ⟨?_, ?_⟩
              · omega
              · rw [hrc1self]
                omega
            · refine (ihmem k).mpr ⟨?_, ?_⟩
              · rw [← hcnt_other k hk]
                exact hne
              · rw [hrc1other k hk, ← hcnt_other k hk]
                exact heq

/-- The culling loop invariant, relative to the post-reference-counting
pass list `ps0` and node list `nodes0`: pass/node shapes are unchanged,
`popped` and the stack hold pairwise distinct, in-bounds, zero-count
nodes, each non-side-effect pass's count is its write count minus the
pops charged to it, and each node's count is its read count minus the
reads of the dead passes. -/
structure CullInv (ps0 : List PassNode) (nodes0 : List ResourceNode)
    (s : CullState) : Prop where
  shapeP : s.passes.map passShape = ps0.map passShape
  prodEq : ∀ k, producerOf s.nodes k = producerOf nodes0 k
  lenN : s.nodes.length = nodes0.length
  nodupPS : (s.popped ++ s.stack).Nodup
  bounded : ∀ n ∈ s.popped ++ s.stack, n < nodes0.length
  zeroRC : ∀ n ∈ s.popped ++ s.stack, rcN s.nodes n = 0
  passRC : ∀ p pass, s.passes.get? p = some pass →
    pass.hasSideEffect = false →
    pass.refCount + countProd s.popped nodes0 p = pass.writes.length
  nodeRC : ∀ n, n < nodes0.length →
    rcN s.nodes n + deadSum s.passes n = readsCount ps0 n

theorem countProd_cons (k : Nat) (popped : List Nat)
    (nodes0 : List ResourceNode) (p : Nat) :
    countProd (k :: popped) nodes0 p =
      (if producerOf nodes0 k = some p then 1 else 0) +
        countProd popped nodes0 p := by
  by_cases h : producerOf nodes0 k = some p
  · rw [if_pos h, countProd, countProd,
      List.filter_cons_of_pos (by simp [h]), List.length_cons]
    omega
  · rw [if_neg h, countProd, countProd,
      List.filter_cons_of_neg (by simp [h]), Nat.zero_add]

theorem countFst_ne_zero_mem {l : List (Nat × Nat)} {k : Nat}
    (h : countFst l k ≠ 0) : k ∈ l.map Prod.fst := by
  induction l with
  | nil => exact absurd rfl h
  | cons r l ih =>
    rw [countFst_cons] at h
    by_cases hr : r.1 = k
    · rw [List.map_cons, hr]
      exact List.mem_cons_self k _
    · rw [if_neg hr, Nat.add_zero] at h
      exact List.mem_cons_of_mem _ (ih h)

theorem countFst_eq_zero_oob {l : List (Nat × Nat)} {m k : Nat}
    (hb : ∀ r ∈ l, r.1 < m) (hk : m ≤ k) : countFst l k = 0 := by
  rw [countFst, List.countP_eq_zero]
  intro r hr
  simp only [beq_iff_eq]
  intro hcontra
  exact absurd (hcontra ▸ hb r hr) (Nat.not_lt_of_le hk)

theorem rcN_oob {nodes : List ResourceNode} {k : Nat}
    (h : nodes.length ≤ k) : rcN nodes k = 0 := by
  rw [rcN, List.get?_eq_none.mpr h]

theorem shapeP_get {ps ps0 : List PassNode}
    (h : ps.map passShape = ps0.map passShape) {p : Nat} {pass : PassNode}
    (hp : ps.get? p = some pass) :
    ∃ pass0, ps0.get? p = some pass0 ∧ passShape pass0 = passShape pass := by
  have hmap := map_get_shape h p
  rw [hp, Option.map_some'] at hmap
  obtain ⟨pass0, hg, hsh⟩ := Option.map_eq_some'.mp hmap.symm
  exact ⟨pass0, hg, hsh⟩

theorem isDead_false_of_rc {p : PassNode} (h : p.refCount ≠ 0) :
    isDead p = false := by
  rw [isDead]
  simp [h]

theorem mem_map_fst {l : List (Nat × Nat)} {k : Nat}
    (h : k ∈ l.map Prod.fst) : ∃ f, (k, f) ∈ l := by
  obtain ⟨r, hr, hrk⟩ := List.mem_map.mp h
  exact ⟨r.2, by rw [← hrk]; exact hr⟩

theorem CullInv_skip (ps0 : List PassNode) (nodes0 : List ResourceNode)
    (s : CullState) (n : Nat) (rest : List Nat)
    (hinv : CullInv ps0 nodes0 s) (hstack : s.stack = n :: rest)
    (hno : ∀ q passq, s.passes.get? q = some passq →
      passq.hasSideEffect = false → producerOf nodes0 n ≠ some q) :
    CullInv ps0 nodes0
      { passes := s.passes, nodes := s.nodes, stack := rest,
        popped := n :: s.popped } := by
  have hperm : (s.popped ++ n :: rest).Perm (n :: (s.popped ++ rest)) :=
    List.perm_middle
  have hold : (s.popped ++ n :: rest).Nodup := hstack ▸ hinv.nodupPS
  have hmem : ∀ a, a ∈ (n :: s.popped) ++ rest ↔ a ∈ s.popped ++ n :: rest := by
    intro a
    rw [hperm.mem_iff]
    exact Iff.rfl
  refine ⟨hinv.shapeP, hinv.prodEq, hinv.lenN, ?_, ?_, ?_, ?_, hinv.nodeRC⟩
  · show ((n :: s.popped) ++ rest).Nodup
    rw [List.cons_append]
    exact hperm.nodup hold
  · intro a ha
    exact hinv.bounded a (hstack ▸ (hmem a).mp ha)
  · intro a ha
    exact hinv.zeroRC a (hstack ▸ (hmem a).mp ha)
  · intro q passq hq hse
    show passq.refCount + countProd (n :: s.popped) nodes0 q = _
    rw [countProd_cons, if_neg (hno q passq hq hse), Nat.zero_add]
    exact hinv.passRC q passq hq hse

theorem get?_mem {l : List α} {n : Nat} {a : α} (h : l.get? n = some a) :
    a ∈ l :=
  (List.get?_eq_some.mp h).2 ▸ List.get_mem _ _ _

theorem popStep_inv (ps0 : List PassNode) (nodes0 : List ResourceNode)
    (SW : ∀ p pass, ps0.get? p = some pass → pass.writes.length < U32)
    (SR : ∀ n, readsCount ps0 n < U32)
    (SB : ∀ pass ∈ ps0, ∀ r ∈ pass.reads, r.1 < nodes0.length)
    (SP : ∀ k p, producerOf nodes0 k = some p →
      ∃ pass, ps0.get? p = some pass ∧ countFst pass.writes k ≠ 0)
    (s : CullState) (n : Nat) (rest : List Nat)
    (hinv : CullInv ps0 nodes0 s) (hstack : s.stack = n :: rest) :
    ∃ t, popStep s.passes s.nodes n rest = some t ∧
      CullInv ps0 nodes0
        { passes := t.1, nodes := t.2.1, stack := t.2.2,
          popped := n :: s.popped } := by
  have hnmem : n ∈ s.popped ++ s.stack := by
    rw [hstack]
    exact List.mem_append_right _ (List.mem_cons_self n rest)
  have hnlt : n < nodes0.length := hinv.bounded n hnmem
  have hnlt2 : n < s.nodes.length := by
    rw [hinv.lenN]
    exact hnlt
  cases hnd : s.nodes.get? n with
  | none => exact absurd (List.get?_eq_none.mp hnd) (Nat.not_le_of_lt hnlt2)
  | some nd =>
    have hprodn : producerOf s.nodes n = nd.producer := by
      rw [producerOf, hnd]
    cases hpr : nd.producer with
    | none =>
      have hstep : popStep s.passes s.nodes n rest =
          some (s.passes, s.nodes, rest) := by
        simp only [popStep, hnd, hpr]
      refine ⟨_, hstep, CullInv_skip ps0 nodes0 s n rest hinv hstack ?_⟩
      intro q passq _ _
      rw [← hinv.prodEq n, hprodn, hpr]
      exact fun hcontra => Option.noConfusion hcontra
    | some p =>
      have hprod0 : producerOf nodes0 n = some p := by
        rw [← hinv.prodEq n, hprodn, hpr]
      obtain ⟨pass0, hp0, hcnt0⟩ := SP n p hprod0
      have hmap := map_get_shape hinv.shapeP p
      rw [hp0, Option.map_some'] at hmap
      obtain ⟨pass, hpq, hshape⟩ := Option.map_eq_some'.mp hmap
      obtain ⟨hcr_eq, hrd_eq, hwr_eq, hsef_eq⟩ := passShape_fields hshape
      by_cases hse : pass.hasSideEffect = true
      · have hstep : popStep s.passes s.nodes n rest =
            some (s.passes, s.nodes, rest) := by
          simp only [popStep, hnd, hpr, hpq]
          rw [if_pos hse]
        refine ⟨_, hstep, CullInv_skip ps0 nodes0 s n rest hinv hstack ?_⟩
        intro q passq hq hqse
        rw [hprod0]
        intro hcontra
        have hqp : p = q := Option.some.inj hcontra
        rw [← hqp] at hq
        rw [hpq] at hq
        cases hq
        rw [hse] at hqse
        cases hqse
      · have hse2 : pass.hasSideEffect = false := by
          cases hb : pass.hasSideEffect
          · rfl
          · exact absurd hb hse
        have hrc_eq := hinv.passRC p pass hpq hse2
        have hnodupA : (s.popped ++ n :: rest).Nodup := hstack ▸ hinv.nodupPS
        have hsplit := List.nodup_append.mp hnodupA
        have hnpop : n ∉ s.popped := fun hmem =>
          hsplit.2.2 hmem (List.mem_cons_self n rest)
        have hnrest : n ∉ rest := by
          have := hsplit.2.1
          rw [List.nodup_cons] at this
          exact this.1
        -- the popped nodes charged to `p`, together with `n`, inject into
        -- the write list of `p`
        have hFsub : ∀ k ∈ n :: s.popped.filter
            (fun k => producerOf nodes0 k == some p),
            k ∈ pass.writes.map Prod.fst := by
          intro k hk
          cases hk with
          | head =>
            rw [hwr_eq]
            exact countFst_ne_zero_mem hcnt0
          | tail _ hmem =>
            have hkp : producerOf nodes0 k = some p := by
              have := (List.mem_filter.mp hmem).2
              exact beq_iff_eq.mp this
            obtain ⟨pass0b, hp0b, hcntb⟩ := SP k p hkp
            rw [hp0] at hp0b
            cases hp0b
            rw [hwr_eq]
            exact countFst_ne_zero_mem hcntb
        have hFnodup : (n :: s.popped.filter
            (fun k => producerOf nodes0 k == some p)).Nodup := by
          rw [List.nodup_cons]
          refine ⟨?_, hsplit.1.filter _⟩
          intro hmem
          exact hnpop (List.mem_of_mem_filter hmem)
        have hcard : (n :: s.popped.filter
            (fun k => producerOf nodes0 k == some p)).length ≤
            pass.writes.length := by
          have h1 : (n :: s.popped.filter
              (fun k => producerOf nodes0 k == some p)).toFinset.card =
              (n :: s.popped.filter
                (fun k => producerOf nodes0 k == some p)).length :=
            List.toFinset_card_of_nodup hFnodup
          have h2 : (n :: s.popped.filter
              (fun k => producerOf nodes0 k == some p)).toFinset ⊆
              (pass.writes.map Prod.fst).toFinset := by
            intro x hx
            exact List.mem_toFinset.mpr (hFsub x (List.mem_toFinset.mp hx))
          have h3 := Finset.card_le_card h2
          have h4 := List.toFinset_card_le (pass.writes.map Prod.fst)
          rw [h1] at h3
          have h5 : (pass.writes.map Prod.fst).length =
              pass.writes.length := List.length_map _ _
          omega
        rw [List.length_cons] at hcard
        have hcp : countProd s.popped nodes0 p = (s.popped.filter
            (fun k => producerOf nodes0 k == some p)).length := rfl
        have hrc1 : 1 ≤ pass.refCount := by omega
        have hrcne : ¬(pass.refCount = 0) := by omega
        have hwlt : pass.writes.length < U32 := by
          rw [hwr_eq]
          exact SW p pass0 hp0
        have hdecr : decr pass.refCount = pass.refCount - 1 :=
          decr_eq_sub _ (by omega) (by omega)
        by_cases hz : decr pass.refCount = 0
        · -- the producer dies: its reads are decremented
          have hrcis1 : pass.refCount = 1 := by omega
          have hstep : popStep s.passes s.nodes n rest =
              some (updAt (fun q => { q with refCount := decr pass.refCount })
                s.passes p,
                (decReads s.nodes rest pass.reads).1,
                (decReads s.nodes rest pass.reads).2) := by
            simp only [popStep, hnd, hpr, hpq]
            rw [if_neg hse, if_neg hrcne, if_pos hz]
          have hpassmem : pass0 ∈ ps0 := get?_mem hp0
          have hb : ∀ r ∈ pass.reads, r.1 < s.nodes.length := by
            intro r hr
            rw [hinv.lenN]
            rw [hrd_eq] at hr
            exact SB pass0 hpassmem r hr
          have hbb : ∀ r ∈ pass.reads, r.1 < nodes0.length := by
            intro r hr
            rw [← hinv.lenN]
            exact hb r hr
          have hdeadf : isDead pass = false := isDead_false_of_rc (by omega)
          have hle : ∀ k, countFst pass.reads k ≤ rcN s.nodes k := by
            intro k
            by_cases hk : k < nodes0.length
            · have hnrc := hinv.nodeRC k hk
              have hadd := deadSum_add_le s.passes k p pass hpq hdeadf
              have hrcg := readsCount_congr hinv.shapeP k
              omega
            · rw [countFst_eq_zero_oob hbb (by omega)]
              exact Nat.zero_le _
          have hlt : ∀ k, rcN s.nodes k < U32 := by
            intro k
            by_cases hk : k < nodes0.length
            · have hnrc := hinv.nodeRC k hk
              have := SR k
              omega
            · rw [rcN_oob (by rw [hinv.lenN]; omega)]
              exact U32_pos
          obtain ⟨Drc, Dlen, Dprod, pushes, Dstack, Dnodup, Dmem⟩ :=
            decReads_spec pass.reads s.nodes rest hb hle hlt
          have hpushprop : ∀ k ∈ pushes,
              countFst pass.reads k ≠ 0 ∧
                rcN s.nodes k = countFst pass.reads k :=
            fun k hk => (Dmem k).mp hk
          have hzero : ∀ a ∈ s.popped ++ n :: rest, rcN s.nodes a = 0 := by
            intro a ha
            refine hinv.zeroRC a ?_
            rw [hstack]
            exact ha
          refine ⟨_, hstep, ?_⟩
          refine ⟨?_, ?_, ?_, ?_, ?_, ?_, ?_, ?_⟩
          · exact (updAt_passShape s.passes p _).trans hinv.shapeP
          · intro k
            show producerOf (decReads s.nodes rest pass.reads).1 k = _
            rw [Dprod k]
            exact hinv.prodEq k
          · show (decReads s.nodes rest pass.reads).1.length = _
            rw [Dlen]
            exact hinv.lenN
          · -- nodup of (n :: popped) ++ (pushes ++ rest)
            show ((n :: s.popped) ++
              (decReads s.nodes rest pass.reads).2).Nodup
            rw [Dstack]
            have hpushdisj : ∀ a ∈ pushes, a ∉ s.popped ++ n :: rest := by
              intro a ha hmem
              have h1 := (hpushprop a ha).1
              have h2 := (hpushprop a ha).2
              have hz2 := hzero a hmem
              omega
            rw [List.nodup_append]
            refine ⟨?_, ?_, ?_⟩
            · rw [List.nodup_cons]
              exact ⟨hnpop, hsplit.1⟩
            · rw [List.nodup_append]
              refine ⟨Dnodup, ?_, ?_⟩
              · have := hsplit.2.1
                rw [List.nodup_cons] at this
                exact this.2
              · intro a ha hmem
                exact hpushdisj a ha
                  (List.mem_append_right _ (List.mem_cons_of_mem n hmem))
            · intro a ha hmem
              rw [List.mem_append] at hmem
              cases hmem with
              | inl hpush =>
                cases ha with
                | head =>
                  exact hpushdisj n hpush
                    (List.mem_append_right _ (List.mem_cons_self n rest))
                | tail _ hmem2 =>
                  exact hpushdisj a hpush (List.mem_append_left _ hmem2)
              | inr hrest =>
                cases ha with
                | head => exact hnrest hrest
                | tail _ hmem2 =>
                  exact hsplit.2.2 hmem2 (List.mem_cons_of_mem n hrest)
          · -- bounds
            intro a ha
            show a < nodes0.length
            rw [List.cons_append, List.mem_cons] at ha
            cases ha with
            | inl han =>
              rw [han]
              exact hnlt
            | inr hmem =>
              rw [List.mem_append, Dstack, List.mem_append] at hmem
              cases hmem with
              | inl hpop =>
                exact hinv.bounded a (List.mem_append_left _ hpop)
              | inr hmem2 =>
                cases hmem2 with
                | inl hpush =>
                  have hcne := (hpushprop a hpush).1
                  obtain ⟨f, hf⟩ := mem_map_fst (countFst_ne_zero_mem hcne)
                  exact hbb (a, f) hf
                | inr hrest =>
                  refine hinv.bounded a ?_
                  rw [hstack]
                  exact List.mem_append_right _ (List.mem_cons_of_mem n hrest)
          · -- all popped/stacked nodes have count zero
            intro a ha
            show rcN (decReads s.nodes rest pass.reads).1 a = 0
            rw [Drc a]
            rw [List.cons_append, List.mem_cons] at ha
            cases ha with
            | inl han =>
              rw [han]
              rw [hzero n (List.mem_append_right _ (List.mem_cons_self n rest))]
              omega
            | inr hmem =>
              rw [List.mem_append, Dstack, List.mem_append] at hmem
              cases hmem with
              | inl hpop =>
                rw [hzero a (List.mem_append_left _ hpop)]
                omega
              | inr hmem2 =>
                cases hmem2 with
                | inl hpush =>
                  have hra := (hpushprop a hpush).2
                  omega
                | inr hrest =>
                  rw [hzero a (List.mem_append_right _
                    (List.mem_cons_of_mem n hrest))]
                  omega
          · -- pass reference counts
            intro q passq hq hqse
            show passq.refCount + countProd (n :: s.popped) nodes0 q =
              passq.writes.length
            by_cases hqp : q = p
            · subst hqp
              rw [updAt_get_self, hpq, Option.map_some'] at hq
              cases hq
              rw [countProd_cons, if_pos hprod0]
              show decr pass.refCount + _ = pass.writes.length
              omega
            · rw [updAt_get_other _ _ (fun h => hqp h.symm)] at hq
              rw [countProd_cons, if_neg (fun hcontra =>
                hqp (Option.some.inj (hprod0 ▸ hcontra)).symm), Nat.zero_add]
              exact hinv.passRC q passq hq hqse
          · -- node reference counts
            intro k hk
            show rcN (decReads s.nodes rest pass.reads).1 k +
              deadSum (updAt (fun q => { q with refCount := decr pass.refCount })
                s.passes p) k = readsCount ps0 k
            rw [Drc k]
            have hnewdead : isDead { pass with refCount := decr pass.refCount } =
                true := by
              rw [isDead]
              have hwne : pass.writes.isEmpty = false := by
                cases hww : pass.writes with
                | nil =>
                  rw [hww] at hcard
                  simp at hcard
                | cons a l => rfl
              simp [hse2, hz, hwne]
            rw [deadSum_updAt_dead s.passes p pass _ k hpq hdeadf hnewdead]
            have hnrc := hinv.nodeRC k hk
            have hlek := hle k
            omega
        · -- the producer survives with a decremented count
          have hstep : popStep s.passes s.nodes n rest =
              some (updAt (fun q => { q with refCount := decr pass.refCount })
                s.passes p, s.nodes, rest) := by
            simp only [popStep, hnd, hpr, hpq]
            rw [if_neg hse, if_neg hrcne, if_neg hz]
          have hperm : (s.popped ++ n :: rest).Perm
              (n :: (s.popped ++ rest)) := List.perm_middle
          have hdeadf2 : isDead pass = false :=
            isDead_false_of_rc (by omega)
          refine ⟨_, hstep, ?_⟩
          refine ⟨?_, ?_, ?_, ?_, ?_, ?_, ?_, ?_⟩
          · exact (updAt_passShape s.passes p _).trans hinv.shapeP
          · exact hinv.prodEq
          · exact hinv.lenN
          · show ((n :: s.popped) ++ rest).Nodup
            rw [List.cons_append]
            exact hperm.nodup hnodupA
          · intro a ha
            refine hinv.bounded a ?_
            rw [hstack]
            exact hperm.mem_iff.mpr ha
          · intro a ha
            refine hinv.zeroRC a ?_
            rw [hstack]
            exact hperm.mem_iff.mpr ha
          · intro q passq hq hqse
            show passq.refCount + countProd (n :: s.popped) nodes0 q =
              passq.writes.length
            by_cases hqp : q = p
            · subst hqp
              rw [updAt_get_self, hpq, Option.map_some'] at hq
              cases hq
              rw [countProd_cons, if_pos hprod0]
              show decr pass.refCount + _ = pass.writes.length
              rw [hdecr]
              omega
            · rw [updAt_get_other _ _ (fun h => hqp h.symm)] at hq
              rw [countProd_cons, if_neg (fun hcontra =>
                hqp (Option.some.inj (hprod0 ▸ hcontra)).symm), Nat.zero_add]
              exact hinv.passRC q passq hq hqse
          · intro k hk
            show rcN s.nodes k + deadSum (updAt
              (fun q => { q with refCount := decr pass.refCount })
                s.passes p) k = readsCount ps0 k
            rw [deadSum_updAt_same s.passes p pass (decr pass.refCount) k hpq
              hdeadf2 (isDead_false_of_rc hz)]
            exact hinv.nodeRC k hk

theorem cullLoop_isSome (ps0 : List PassNode) (nodes0 : List ResourceNode)
    (SW : ∀ p pass, ps0.get? p = some pass → pass.writes.length < U32)
    (SR : ∀ n, readsCount ps0 n < U32)
    (SB : ∀ pass ∈ ps0, ∀ r ∈ pass.reads, r.1 < nodes0.length)
    (SP : ∀ k p, producerOf nodes0 k = some p →
      ∃ pass, ps0.get? p = some pass ∧ countFst pass.writes k ≠ 0) :
    ∀ (fuel : Nat) (s : CullState), CullInv ps0 nodes0 s →
      nodes0.length - s.popped.length < fuel →
      (cullLoop fuel s).isSome := by
  intro fuel
  induction fuel with
  | zero =>
    intro s _ hf
    omega
  | succ fuel ih =>
    intro s hinv hf
    cases hst : s.stack with
    | nil =>
      rw [cullLoop, hst]
      rfl
    | cons n rest =>
      obtain ⟨t, hstep, hinv2⟩ :=
        popStep_inv ps0 nodes0 SW SR SB SP s n rest hinv hst
      rw [cullLoop, hst]
      simp only [hstep]
      refine ih _ hinv2 ?_
      have hlen := nodup_lt_length hinv.nodupPS hinv.bounded
      rw [hst, List.length_append, List.length_cons] at hlen
      show nodes0.length - (n :: s.popped).length < fuel
      rw [List.length_cons]
      omega

/-- A graph as produced by the declaration API, before `compile()`: fresh
resource nodes (zero count, no producer), in-bounds read targets, and
counter values away from 32-bit overflow. -/
def declaredWF (fg : FrameGraph) : Prop :=
  (∀ nd ∈ fg.resourceNodes, nd.refCount = 0 ∧ nd.producer = none) ∧
  (∀ p ∈ fg.passNodes, ∀ r ∈ p.reads, r.1 < fg.resourceNodes.length) ∧
  (∀ p ∈ fg.passNodes, p.writes.length < U32) ∧
  (∀ n, n < fg.resourceNodes.length → readsCount fg.passNodes n < U32)

theorem readsCount_oob {ps : List PassNode} {m n : Nat}
    (hb : ∀ p ∈ ps, ∀ r ∈ p.reads, r.1 < m) (hn : m ≤ n) :
    readsCount ps n = 0 := by
  induction ps with
  | nil => rfl
  | cons p psr ih =>
    rw [readsCount, countFst_eq_zero_oob
      (fun r hr => hb p (List.mem_cons_self p psr) r hr) hn,
      ih (fun q hq r hr => hb q (List.mem_cons_of_mem p hq) r hr)]

theorem lastWriterFrom_spec {n : Nat} :
    ∀ (ps : List PassNode) (i : Nat) (acc : Option Nat) (p : Nat),
      lastWriterFrom i ps n acc = some p →
      acc = some p ∨ ∃ k pass, ps.get? k = some pass ∧ p = i + k ∧
        countFst pass.writes n ≠ 0 := by
  intro ps
  induction ps with
  | nil =>
    intro i acc p h
    exact Or.inl h
  | cons q qs ih =>
    intro i acc p h
    rw [lastWriterFrom] at h
    rcases ih (i + 1) _ p h with hacc | ⟨k, pass, hk, hp, hcnt⟩
    · by_cases hz : countFst q.writes n = 0
      · rw [if_pos hz] at hacc
        exact Or.inl hacc
      · rw [if_neg hz] at hacc
        refine Or.inr ⟨0, q, rfl, ?_, hz⟩
        rw [Nat.add_zero]
        exact (Option.some.inj hacc).symm
    · exact Or.inr ⟨k + 1, pass, hk, by omega, hcnt⟩

/-- C9: on every graph reachable through the declaration API, the culling
loop of `compile()` never pops an unreferenced resource whose
non-side-effect producer already has a zero reference count — the source's
`assert(producer->m_refCount >= 1)` holds at every decrement, the count
never underflows, and the loop terminates (every node is popped at most
once), so `compile()` returns normally. -/
theorem C9_culling_assert_holds (fg : FrameGraph) (hwf : declaredWF fg) :
    ∃ fg', fg.compile = some fg' := by
  obtain ⟨hnodes, hrb, hw, hrc⟩ := hwf
  have hreads : ∀ n, readsCount fg.passNodes n < U32 := by
    intro n
    by_cases hn : n < fg.resourceNodes.length
    · exact hrc n hn
    · rw [readsCount_oob hrb (by omega)]
      exact U32_pos
  obtain ⟨hP, hN⟩ := refCountingPhase_spec fg hnodes hreads hw
  have hlenP : (refCountingPhase fg).passNodes.length =
      fg.passNodes.length := by
    have := congrArg List.length (refCountingPhase_passShape fg)
    rwa [List.length_map, List.length_map] at this
  have hlenN : (refCountingPhase fg).resourceNodes.length =
      fg.resourceNodes.length := by
    have := congrArg List.length (refCountingPhase_nodeShape fg)
    rwa [List.length_map, List.length_map] at this
  have hPinv : ∀ p pass, (refCountingPhase fg).passNodes.get? p = some pass →
      ∃ orig, fg.passNodes.get? p = some orig ∧
        pass = { orig with refCount := orig.writes.length } := by
    intro p pass hp
    cases ho : fg.passNodes.get? p with
    | none =>
      have hplt := get?_bound hp
      rw [hlenP] at hplt
      exact absurd (List.get?_eq_none.mp ho) (Nat.not_le_of_lt hplt)
    | some orig =>
      have h2 := hP p orig ho
      rw [hp] at h2
      exact ⟨orig, rfl, Option.some.inj h2⟩
  have hrcongr : ∀ n, readsCount (refCountingPhase fg).passNodes n =
      readsCount fg.passNodes n :=
    readsCount_congr (refCountingPhase_passShape fg)
  have SW : ∀ p pass, (refCountingPhase fg).passNodes.get? p = some pass →
      pass.writes.length < U32 := by
    intro p pass hp
    obtain ⟨orig, ho, hpe⟩ := hPinv p pass hp
    rw [hpe]
    exact hw orig (get?_mem ho)
  have SR : ∀ n, readsCount (refCountingPhase fg).passNodes n < U32 := by
    intro n
    rw [hrcongr n]
    exact hreads n
  have SB : ∀ pass ∈ (refCountingPhase fg).passNodes, ∀ r ∈ pass.reads,
      r.1 < (refCountingPhase fg).resourceNodes.length := by
    intro pass hmem r hr
    rw [hlenN]
    obtain ⟨k, hk⟩ := List.mem_iff_get?.mp hmem
    obtain ⟨orig, ho, hpe⟩ := hPinv k pass hk
    rw [hpe] at hr
    exact hrb orig (get?_mem ho) r hr
  have SP : ∀ k p, producerOf (refCountingPhase fg).resourceNodes k = some p →
      ∃ pass, (refCountingPhase fg).passNodes.get? p = some pass ∧
        countFst pass.writes k ≠ 0 := by
    intro k p hprod
    cases hk : fg.resourceNodes.get? k with
    | none =>
      have hkk : (refCountingPhase fg).resourceNodes.get? k = none := by
        rw [List.get?_eq_none, hlenN]
        exact List.get?_eq_none.mp hk
      simp only [producerOf, hkk] at hprod
      exact Option.noConfusion hprod
    | some nd =>
      have hNk := hN k nd hk
      simp only [producerOf, hNk] at hprod
      rcases lastWriterFrom_spec fg.passNodes 0 none p hprod with hacc | hex
      · cases hacc
      · obtain ⟨j, orig, hj, hpj, hcnt⟩ := hex
        rw [Nat.zero_add] at hpj
        rw [hpj]
        exact ⟨{ orig with refCount := orig.writes.length }, hP j orig hj,
          hcnt⟩
  have hinv0 : CullInv (refCountingPhase fg).passNodes
      (refCountingPhase fg).resourceNodes
      { passes := (refCountingPhase fg).passNodes,
        nodes := (refCountingPhase fg).resourceNodes,
        stack := seedStack (refCountingPhase fg).resourceNodes,
        popped := [] } := by
    obtain ⟨hseednd, hseedmem⟩ :=
      seedStack_spec (refCountingPhase fg).resourceNodes
    have hlive : ∀ pass ∈ (refCountingPhase fg).passNodes,
        pass.refCount = pass.writes.length := by
      intro pass hmem
      obtain ⟨k, hk⟩ := List.mem_iff_get?.mp hmem
      obtain ⟨orig, _, hpe⟩ := hPinv k pass hk
      rw [hpe]
    refine ⟨rfl, fun k => rfl, rfl, ?_, ?_, ?_, ?_, ?_⟩
    · show ([] ++ seedStack _).Nodup
      rw [List.nil_append]
      exact hseednd
    · intro a ha
      rw [List.nil_append] at ha
      exact (hseedmem a ha).1
    · intro a ha
      rw [List.nil_append] at ha
      exact (hseedmem a ha).2
    · intro p pass hp _
      show pass.refCount + countProd [] _ p = pass.writes.length
      rw [countProd, List.filter_nil, List.length_nil, Nat.add_zero]
      exact hlive pass (get?_mem hp)
    · intro n hn
      rw [deadSum_all_live _ n hlive, Nat.add_zero]
      cases hk : fg.resourceNodes.get? n with
      | none =>
        rw [hlenN] at hn
        exact absurd (List.get?_eq_none.mp hk) (Nat.not_le_of_lt hn)
      | some nd =>
        rw [rcN_eq (hN n nd hk)]
        show readsCount fg.passNodes n = _
        rw [hrcongr n]
  have hsome := cullLoop_isSome (refCountingPhase fg).passNodes
    (refCountingPhase fg).resourceNodes SW SR SB SP
    ((refCountingPhase fg).resourceNodes.length + 1) _ hinv0 (by
      show (refCountingPhase fg).resourceNodes.length - List.length [] <
        (refCountingPhase fg).resourceNodes.length + 1
      rw [List.length_nil]
      omega)
  unfold FrameGraph.compile
  cases hcl : cullLoop ((refCountingPhase fg).resourceNodes.length + 1)
      { passes := (refCountingPhase fg).passNodes,
        nodes := (refCountingPhase fg).resourceNodes,
        stack := seedStack (refCountingPhase fg).resourceNodes,
        popped := [] } with
  | none =>
    rw [hcl] at hsome
    cases hsome
  | some s =>
    refine ⟨lifetimePhase { refCountingPhase fg with passNodes := s.passes, resourceNodes := s.nodes }, ?_⟩
    simp only [hcl]

theorem C9_witness :
    declaredWF scenarioC ∧ ∃ fg', scenarioC.compile = some fg' :=
  ⟨by unfold declaredWF; exact ⟨by decide, by decide, by decide, by decide⟩,
    C9_culling_assert_holds scenarioC
      (by unfold declaredWF;
          exact ⟨by decide, by decide, by decide, by decide⟩)⟩
